import Mathlib

/-!
# Verification of the CANOpenAnalyzer frame store and signal decoding engine

A shallow embedding of the core of the repository: the bit-level integer
signal extractor (`Utility::processIntegerSignal`), the `CANFrameModel`
frame store with its per-key filter table, protocol-class filtering,
dedup (overwrite) ingestion, the quicksort-based column sort, and the
filter-file loader.  Machine integers are modelled as `Nat`/`Int` with
explicit `% 2 ^ 64` where wrap-around can occur.
-/

namespace CANOpen

/-- Reinterpret a 64-bit unsigned bit pattern as a two's-complement
signed 64-bit integer (the value an `int64_t` holding these bits reads as). -/
def toInt64 (n : Nat) : Int :=
  if n % 2 ^ 64 < 2 ^ 63 then ((n % 2 ^ 64 : Nat) : Int)
  else ((n % 2 ^ 64 : Nat) : Int) - 2 ^ 64

/-- Truncate an `Int` to an unsigned 64-bit value (C++ cast to `uint64_t`). -/
def intToUInt64 (x : Int) : Nat := (x % 2 ^ 64).toNat

/-! ## BitExtractor: `Utility::processIntegerSignal`

The little-endian accumulation loop of `processIntegerSignal`
(src/unnamed/part_000, lines 276-289).  `n` is the remaining number of
iterations (`sigSize - bitpos`); hitting a byte position at or past the
end of the payload is the C++ `return 0` early exit, modelled as `none`. -/
def leBits (data : List Nat) : Nat → Nat → Nat → Nat → Option Nat
  | 0, _bitpos, _bit, acc => some acc
  | n + 1, bitpos, bit, acc =>
    if bit < 64 then
      if data.length ≤ bit / 8 then none
      else
        let acc' := if (data.getD (bit / 8) 0).testBit (bit % 8) then acc + 2 ^ bitpos else acc
        leBits data n (bitpos + 1) (bit + 1) acc'
    else leBits data n (bitpos + 1) (bit + 1) acc

/-- The Motorola / big-endian accumulation loop of `processIntegerSignal`
(src/unnamed/part_000, lines 291-307).  The bit cursor decrements inside a
byte and jumps forward 15 positions when it crosses a byte boundary. -/
def beBits (data : List Nat) (sigSize : Nat) : Nat → Nat → Nat → Nat → Option Nat
  | 0, _bitpos, _bit, acc => some acc
  | n + 1, bitpos, bit, acc =>
    if bit < 64 then
      if data.length ≤ bit / 8 then none
      else
        let acc' := if (data.getD (bit / 8) 0).testBit (bit % 8) then
            acc + 2 ^ (sigSize - bitpos - 1) else acc
        beBits data sigSize n (bitpos + 1) (if bit % 8 == 0 then bit + 15 else bit - 1) acc'
    else beBits data sigSize n (bitpos + 1) (if bit % 8 == 0 then bit + 15 else bit - 1) acc

/-- `Utility::processIntegerSignal` (src/unnamed/part_000, lines 267-337):
decode a signed or unsigned integer signal out of a payload, as a 64-bit
signed result.  The sign-extension mask `~((1ULL << sigSize) - 1)` is the
complement within 64 bits of the low `sigSize`-bit mask. -/
def processIntegerSignal (data : List Nat) (startBit sigSize : Nat)
    (littleEndian isSigned : Bool) : Int :=
  let maxBytes := (startBit + sigSize) / 8
  if data.length < maxBytes then 0
  else
    let raw? := if littleEndian then leBits data sigSize 0 startBit 0
                else beBits data sigSize sigSize 0 startBit 0
    match raw? with
    | none => 0
    | some result =>
      if isSigned then
        let mask := 2 ^ (sigSize - 1)
        if result &&& mask == mask then
          let signedMask := (2 ^ 64 - 1) - ((2 ^ sigSize - 1) % 2 ^ 64)
          toInt64 (signedMask ||| result)
        else toInt64 result
      else toInt64 result

/-- The successor function of the Motorola bit traversal: decrement the
intra-byte bit index, jumping to bit 7 of the next byte at a byte boundary. -/
def motorolaNext (b : Nat) : Nat := if b % 8 == 0 then b + 15 else b - 1

/-- The payload bit position visited by the `bitpos`-th loop iteration of
`processIntegerSignal`, for either byte order. -/
def signalBitPos (littleEndian : Bool) (startBit i : Nat) : Nat :=
  if littleEndian then startBit + i else motorolaNext^[i] startBit

/-! ## The filter table

`CANFrameModel::filters` is a `QMap<int, bool>`: a map from 7-bit node key
to an enabled flag, one binding per key.  It is modelled as an association
list with at most one binding per key (`fmInsert` replaces in place). -/

/-- The filter table: one `(key, enabled)` binding per key. -/
abbrev FilterMap := List (Nat × Bool)

/-- `QMap::contains`. -/
def fmContains (m : FilterMap) (k : Nat) : Bool := m.any (fun p => p.1 == k)

/-- Value stored at key `k`, if present. -/
def fmLookup (m : FilterMap) (k : Nat) : Option Bool :=
  (m.find? (fun p => p.1 == k)).map (fun p => p.2)

/-- `QMap::insert` / `operator[]=`: replace the binding if the key is
present, otherwise add a binding. -/
def fmInsert (m : FilterMap) (k : Nat) (v : Bool) : FilterMap :=
  if fmContains m k then m.map (fun p => if p.1 == k then (k, v) else p)
  else m ++ [(k, v)]

/-- Non-const `QMap::operator[]` read: if the key is absent a
default-constructed value (`false`) is inserted and returned. -/
def fmOpIndex (m : FilterMap) (k : Nat) : Bool × FilterMap :=
  match fmLookup m k with
  | some v => (v, m)
  | none => (false, m ++ [(k, false)])

/-- `QMap::iterator` bulk overwrite used by `setAllFilters`. -/
def fmSetAll (m : FilterMap) (v : Bool) : FilterMap :=
  m.map (fun p => (p.1, v))

/-! ## Frames and the frame store -/

/-- One CAN frame as stored by the model: the fields of `CANFrame`
(a `QCanBusFrame` plus the bus / direction / dedup statistics members)
that the store logic reads or writes.  `timeStamp` is the microsecond
count (`qint64`); `timedelta` and `frameCount` are the dedup-mode
statistics (`uint64_t` / `uint32_t`). -/
structure CANFrame where
  frameId : Nat
  extended : Bool
  bus : Int
  timeStamp : Int
  isReceived : Bool
  isRemote : Bool
  payload : List Nat
  frameCount : Nat
  timedelta : Nat
  deriving Repr, DecidableEq, Inhabited

/-- The mutable state of `CANFrameModel` that the verified operations
touch.  UI-only members (notification brackets, colors, time format)
carry no state relevant to the claims and are omitted. -/
structure CANFrameModel where
  frames : List CANFrame
  filteredFrames : List CANFrame
  filters : FilterMap
  overwriteDups : Bool
  timeOffset : Int
  sortDirAsc : Bool
  filterNMTon : Bool
  filterSYNCon : Bool
  filterEMCYon : Bool
  filterTIMEon : Bool
  filterHBEATon : Bool
  needFilterRefresh : Bool
  lastUpdateNumFrames : Int
  deriving Repr, DecidableEq, Inhabited

/-- `CANFrameModel::any_filters_are_configured`
(src/scriptcontainer.cpp lines 901-911): walks the filter values and
returns `true` as soon as one of them is not `true`. -/
def any_filters_are_configured (filters : FilterMap) : Bool :=
  filters.any (fun p => p.2 == false)

/-- `CANFrameModel::filterFrameConsideringFunction`
(src/scriptcontainer.cpp lines 422-502): protocol-class filtering by the
CANopen function code `(frame_id & 0x7FF) >> 7`; returns `false` when the
frame is to be filtered out. -/
def filterFrameConsideringFunction (m : CANFrameModel) (frame_id : Nat) : Bool :=
  let func := (frame_id &&& 0x7FF) >>> 7
  if func == 0 then !m.filterNMTon
  else if func == 1 then
    (if frame_id &&& 0x7F == 0 then !m.filterSYNCon else !m.filterEMCYon)
  else if func == 2 then !m.filterTIMEon
  else if func == 14 then !m.filterHBEATon
  else true

/-- `CANFrameModel::sendRefresh` (src/scriptcontainer.cpp lines 1004-1025):
wholesale recompute of the filtered view by scanning the full store with
the current filter table and protocol-class flags.  The `filters[...]`
read is the non-const `QMap::operator[]`, which inserts `false` for a key
it has not seen. -/
def sendRefresh (m : CANFrameModel) : CANFrameModel :=
  let r := m.frames.foldl (fun st f =>
    if (fmOpIndex st.2 (f.frameId &&& 0x7F)).1 &&
        filterFrameConsideringFunction m f.frameId then
      (st.1 ++ [f], (fmOpIndex st.2 (f.frameId &&& 0x7F)).2)
    else (st.1, (fmOpIndex st.2 (f.frameId &&& 0x7F)).2)) ([], m.filters)
  { m with filteredFrames := r.1, filters := r.2, lastUpdateNumFrames := 0 }

/-- `CANFrameModel::setFilterState` (src/scriptcontainer.cpp lines 285-290).
Note the original masks the key for the `contains` check but assigns at
the unmasked `ID`. -/
def setFilterState (m : CANFrameModel) (ID : Nat) (state : Bool) : CANFrameModel :=
  if !fmContains m.filters (ID &&& 0x7F) then m
  else sendRefresh { m with filters := fmInsert m.filters ID state }

/-- `CANFrameModel::setAllFilters` (src/scriptcontainer.cpp lines 292-300). -/
def setAllFilters (m : CANFrameModel) (state : Bool) : CANFrameModel :=
  sendRefresh { m with filters := fmSetAll m.filters state }

/-- `CANFrameModel::addFrame` (src/scriptcontainer.cpp lines 914-988).
The `autoRefresh` argument only drives view-notification brackets and has
no effect on the stored state, so it is not modelled. -/
def addFrame (m : CANFrameModel) (frame : CANFrame) : CANFrameModel :=
  let tempFrame := { frame with timeStamp := frame.timeStamp - m.timeOffset }
  let key := tempFrame.frameId &&& 0x7F
  let m := { m with lastUpdateNumFrames := m.lastUpdateNumFrames + 1 }
  let m :=
    if !fmContains m.filters key then
      if any_filters_are_configured m.filters then
        { m with filters := fmInsert m.filters key false, needFilterRefresh := true }
      else
        { m with filters := fmInsert m.filters key true, needFilterRefresh := true }
    else m
  if !m.overwriteDups then
    let m := { m with frames := m.frames ++ [tempFrame] }
    let (v, fs') := fmOpIndex m.filters key
    let m := { m with filters := fs' }
    if v && filterFrameConsideringFunction m tempFrame.frameId then
      { m with filteredFrames := m.filteredFrames ++ [{ tempFrame with frameCount := 1 }] }
    else m
  else
    match m.frames.findIdx? (fun g =>
        g.frameId == tempFrame.frameId && g.bus == tempFrame.bus) with
    | some i =>
      let old := m.frames.getD i default
      let temp2 := { tempFrame with
        frameCount := old.frameCount + 1,
        timedelta := intToUInt64 (tempFrame.timeStamp - old.timeStamp) }
      let m := { m with frames := m.frames.set i temp2 }
      { m with filteredFrames := m.filteredFrames.map (fun g =>
          if g.frameId == temp2.frameId && g.bus == temp2.bus then temp2 else g) }
    | none =>
      let m := { m with frames := m.frames ++ [tempFrame] }
      let (v, fs') := fmOpIndex m.filters key
      let m := { m with filters := fs' }
      if v && filterFrameConsideringFunction m tempFrame.frameId then
        { m with filteredFrames := m.filteredFrames ++
            [{ tempFrame with frameCount := 1, timedelta := 0 }] }
      else m

/-- `CANFrameModel::insertFrames` (src/scriptcontainer.cpp lines 1076-1104):
bulk ingestion; a previously-unseen key is always registered enabled. -/
def insertFrames (m : CANFrameModel) (newFrames : List CANFrame) : CANFrameModel :=
  let step := fun (acc : CANFrameModel) (f : CANFrame) =>
    let key := f.frameId &&& 0x7F
    let acc := { acc with frames := acc.frames ++ [f] }
    let acc :=
      if !fmContains acc.filters key then
        { acc with filters := fmInsert acc.filters key true, needFilterRefresh := true }
      else acc
    let (v, fs') := fmOpIndex acc.filters key
    let acc := { acc with filters := fs' }
    if v && filterFrameConsideringFunction acc f.frameId then
      { acc with filteredFrames := acc.filteredFrames ++ [f] }
    else acc
  let m' := newFrames.foldl step m
  { m' with lastUpdateNumFrames := (newFrames.length : Int) }

/-! ## The filter definition file loader -/

/-- The ASCII whitespace characters recognised by `QByteArray::simplified`. -/
def isQtSpace (c : Char) : Bool :=
  c == ' ' || c == '\t' || c == '\n' || c == '\x0b' || c == '\x0c' || c == '\r'

/-- The maximal whitespace-free runs of a byte sequence, in order
(`cur` accumulates the current run reversed). -/
def wordsAux : List Char → List Char → List (List Char)
  | [], cur => if cur.isEmpty then [] else [cur.reverse]
  | c :: cs, cur =>
    if isQtSpace c then
      if cur.isEmpty then wordsAux cs [] else cur.reverse :: wordsAux cs []
    else wordsAux cs (c :: cur)

/-- `QByteArray::simplified`: trim leading/trailing whitespace and collapse
every internal whitespace run to a single space. -/
def qtSimplified (s : List Char) : List Char :=
  List.intercalate [' '] (wordsAux s [])

/-- `QByteArray::split(',')`: the comma-separated parts, empty parts kept. -/
def splitCommaAux : List Char → List Char → List (List Char)
  | [], cur => [cur.reverse]
  | c :: cs, cur =>
    if c == ',' then cur.reverse :: splitCommaAux cs []
    else splitCommaAux cs (c :: cur)

/-- `QByteArray::split(',')`. -/
def splitComma (s : List Char) : List (List Char) := splitCommaAux s []

/-- `QByteArray::toUpper` on one ASCII byte. -/
def qtToUpperChar (c : Char) : Char :=
  if 'a' ≤ c ∧ c ≤ 'z' then Char.ofNat (c.toNat - 32) else c

/-- Value of a hexadecimal digit character. -/
def hexDigitVal (c : Char) : Option Nat :=
  if '0' ≤ c ∧ c ≤ '9' then some (c.toNat - '0'.toNat)
  else if 'a' ≤ c ∧ c ≤ 'f' then some (c.toNat - 'a'.toNat + 10)
  else if 'A' ≤ c ∧ c ≤ 'F' then some (c.toNat - 'A'.toNat + 10)
  else none

/-- Accumulate hexadecimal digits; `none` on a non-digit or on no digits. -/
def hexDigitsVal : List Char → Nat → Option Nat
  | [], acc => some acc
  | c :: cs, acc =>
    match hexDigitVal c with
    | some d => hexDigitsVal cs (acc * 16 + d)
    | none => none

/-- `QByteArray::toInt(nullptr, 16)`: optional sign, optional `0x` prefix,
then hexadecimal digits; any malformed input or overflow of the 32-bit
`int` range converts to 0. -/
def qtToIntHex (s : List Char) : Int :=
  let nat? := fun (cs : List Char) =>
    match cs with
    | [] => none
    | '0' :: x :: rest =>
      if x == 'x' || x == 'X' then
        (match rest with | [] => none | _ => hexDigitsVal rest 0)
      else hexDigitsVal (('0' :: x :: rest)) 0
    | _ => hexDigitsVal cs 0
  let signed? : Option Int :=
    match s with
    | '-' :: rest => (nat? rest).map (fun n => -(n : Int))
    | '+' :: rest => (nat? rest).map (fun n => (n : Int))
    | cs => (nat? cs).map (fun n => (n : Int))
  match signed? with
  | none => 0
  | some v => if v < -(2 ^ 31) ∨ 2 ^ 31 - 1 < v then 0 else v

/-- `CANFrameModel::loadFilterFile` (src/scriptcontainer.cpp lines 1121-1147).
The file is given as `none` when it cannot be opened (the function returns
at once) and otherwise as the list of lines `readLine` produces.  A line
whose simplified form has length at most 2 is skipped; otherwise it is
split at commas, the first token parsed as a hexadecimal `int` and masked
to 7 bits, and the entry inserted enabled exactly when the second token
upper-cases to `"T"`.  (The original indexes `tokens[1]` unchecked; on a
line without a comma that read is out of range and is modelled here as the
empty byte array.)  `ID & 0x7F` on a 32-bit two's-complement `int` equals
`ID.emod 128`. -/
def loadFilterFile (m : CANFrameModel) (file : Option (List (List Char))) :
    CANFrameModel :=
  match file with
  | none => m
  | some lines =>
    let step := fun (fs : FilterMap) (line : List Char) =>
      let l := qtSimplified line
      if 2 < l.length then
        let tokens := splitComma l
        let ID := qtToIntHex (tokens.getD 0 [])
        let key := (ID.emod 128).toNat
        if (tokens.getD 1 []).map qtToUpperChar == ['T'] then fmInsert fs key true
        else fmInsert fs key false
      else fs
    let filters1 := lines.foldl step []
    sendRefresh { m with filters := filters1 }

/-! ## Column sort keys -/

/-- The visible columns of the model (`CANFrameModel::Column`). -/
inductive Column
  | TimeStamp | FrameId | Extended | Remote | Direction | Bus | Length
  | ASCII | Data | CANOpenFunction | CANOpenNode | NUM_COLUMN
  deriving Repr, DecidableEq

/-- `static_cast<uint64_t>` of a `char`-typed payload byte: bytes at or
above 0x80 are negative as `char` and sign-extend. -/
def charToUInt64 (b : Nat) : Nat :=
  if b % 256 < 128 then b % 256 else 2 ^ 64 - 256 + b % 256

/-- The per-column sort key of one frame, i.e. the value
`CANFrameModel::getCANFrameVal` computes from `frames[row]`
(src/scriptcontainer.cpp lines 307-348). -/
def canFrameColVal (overwriteDups : Bool) (f : CANFrame) (col : Column) : Nat :=
  match col with
  | Column.TimeStamp => if overwriteDups then f.timedelta else intToUInt64 f.timeStamp
  | Column.FrameId => f.frameId
  | Column.Extended => if f.extended then 1 else 0
  | Column.Remote =>
    if overwriteDups then f.frameCount else if f.isRemote then 1 else 0
  | Column.Direction => if f.isReceived then 1 else 0
  | Column.Bus => intToUInt64 f.bus
  | Column.Length => f.payload.length
  | Column.ASCII | Column.Data =>
    (f.payload.enum.foldl
      (fun temp p => (temp + (charToUInt64 p.2 <<< (56 - 8 * p.1)) % 2 ^ 64) % 2 ^ 64) 0)
  | Column.CANOpenFunction => f.frameId >>> 7
  | Column.CANOpenNode => f.frameId &&& 0x7f
  | Column.NUM_COLUMN => 0

/-- `CANFrameModel::getCANFrameVal(row, col)`: the sort key of the row at
`row`, 0 when the row index is at or past the end of the store. -/
def getCANFrameVal (overwriteDups : Bool) (frames : List CANFrame) (row : Int)
    (col : Column) : Nat :=
  if (frames.length : Int) ≤ row then 0
  else canFrameColVal overwriteDups (frames.getD row.toNat default) col

/-! ## The quicksort engine

`qSortCANFrameAsc` and `qSortCANFrameDesc`
(src/scriptcontainer.cpp lines 350-410) are the same Hoare two-pointer
partition sort with the two scan comparisons mirrored, so they are both
instances of one recursion parameterized by the strict comparison `lt`
(`<` on keys for ascending, `>` for descending).  `keyAt val a r` is
`getCANFrameVal(r, col)` for the element key function `val` of the column. -/

/-- The sort key of row `r` of `a`: 0 past the end, else the key of the
element (the body of `getCANFrameVal` for a fixed column). -/
def keyAt (val : CANFrame → Nat) (a : List CANFrame) (r : Int) : Nat :=
  if (a.length : Int) ≤ r then 0 else val (a.getD r.toNat default)

theorem getCANFrameVal_eq_keyAt (dups : Bool) (frames : List CANFrame) (row : Int)
    (col : Column) :
    getCANFrameVal dups frames row col =
      keyAt (fun f => canFrameColVal dups f col) frames row := rfl

/-- The inward scan of the lower pointer:
`do { i++; } while ((i < upperBound) && lt(key(i), piv))`. -/
def scanUp (val : CANFrame → Nat) (lt : Nat → Nat → Bool) (a : List CANFrame)
    (upper : Int) (piv : Nat) (i : Int) : Int :=
  if h : i + 1 < upper ∧ lt (keyAt val a (i + 1)) piv = true then
    scanUp val lt a upper piv (i + 1)
  else i + 1
termination_by (upper - i).toNat
decreasing_by omega

/-- The inward scan of the upper pointer:
`do { j--; } while ((j > lowerBound) && lt(piv, key(j)))`. -/
def scanDown (val : CANFrame → Nat) (lt : Nat → Nat → Bool) (a : List CANFrame)
    (lower : Int) (piv : Nat) (j : Int) : Int :=
  if h : lower < j - 1 ∧ lt piv (keyAt val a (j - 1)) = true then
    scanDown val lt a lower piv (j - 1)
  else j - 1
termination_by (j - lower).toNat
decreasing_by omega

/-- Exchange of rows `i` and `j` (`frames->replace` pair in the source). -/
def listSwap (a : List CANFrame) (i j : Int) : List CANFrame :=
  (a.set i.toNat (a.getD j.toNat default)).set j.toNat (a.getD i.toNat default)

theorem scanUp_gt (val : CANFrame → Nat) (lt : Nat → Nat → Bool) (a : List CANFrame)
    (upper : Int) (piv : Nat) (i : Int) : i < scanUp val lt a upper piv i := by
  rw [scanUp]
  split
  · next h => exact lt_trans (by omega) (scanUp_gt val lt a upper piv (i + 1))
  · omega
termination_by (upper - i).toNat
decreasing_by omega

theorem scanUp_le (val : CANFrame → Nat) (lt : Nat → Nat → Bool) (a : List CANFrame)
    (upper : Int) (piv : Nat) (i : Int) (m : Int) (him : i < m)
    (hm : ¬(m < upper ∧ lt (keyAt val a m) piv = true)) :
    scanUp val lt a upper piv i ≤ m := by
  rw [scanUp]
  split
  · next h =>
    rcases lt_or_eq_of_le (by omega : i + 1 ≤ m) with h' | h'
    · exact scanUp_le val lt a upper piv (i + 1) m h' hm
    · exact absurd (h' ▸ h) hm
  · omega
termination_by (upper - i).toNat
decreasing_by omega

theorem scanDown_lt (val : CANFrame → Nat) (lt : Nat → Nat → Bool) (a : List CANFrame)
    (lower : Int) (piv : Nat) (j : Int) : scanDown val lt a lower piv j < j := by
  rw [scanDown]
  split
  · next h => exact lt_trans (scanDown_lt val lt a lower piv (j - 1)) (by omega)
  · omega
termination_by (j - lower).toNat
decreasing_by omega

theorem scanDown_ge (val : CANFrame → Nat) (lt : Nat → Nat → Bool) (a : List CANFrame)
    (lower : Int) (piv : Nat) (j : Int) (m : Int) (hmj : m < j)
    (hm : ¬(lower < m ∧ lt piv (keyAt val a m) = true)) :
    m ≤ scanDown val lt a lower piv j := by
  rw [scanDown]
  split
  · next h =>
    rcases lt_or_eq_of_le (by omega : m ≤ j - 1) with h' | h'
    · exact scanDown_ge val lt a lower piv (j - 1) m h' hm
    · exact absurd (h' ▸ h) hm
  · omega
termination_by (j - lower).toNat
decreasing_by omega

theorem listSwap_length (a : List CANFrame) (i j : Int) :
    (listSwap a i j).length = a.length := by
  simp [listSwap]

theorem getD_listSwap_other (a : List CANFrame) (i j : Int) (k : Nat)
    (hki : k ≠ i.toNat) (hkj : k ≠ j.toNat) :
    (listSwap a i j).getD k default = a.getD k default := by
  simp [listSwap, List.getD_eq_getElem?_getD, List.getElem?_set,
    (Ne.symm hki), (Ne.symm hkj)]

theorem getD_listSwap_fst (a : List CANFrame) (i j : Int)
    (hi : 0 ≤ i) (hil : i < (a.length : Int)) (hj : 0 ≤ j) (hjl : j < (a.length : Int)) :
    (listSwap a i j).getD i.toNat default = a.getD j.toNat default := by
  rcases eq_or_ne i.toNat j.toNat with he | hne
  · rw [he]
    simp only [listSwap, List.getD_eq_getElem?_getD, List.getElem?_set, List.length_set,
      if_pos rfl]
    rw [if_pos (by omega : j.toNat < a.length)]
    simp [he]
  · simp only [listSwap, List.getD_eq_getElem?_getD, List.getElem?_set, List.length_set,
      if_neg (Ne.symm hne), if_pos rfl]
    rw [if_pos (by omega : i.toNat < a.length)]
    simp

theorem getD_listSwap_snd (a : List CANFrame) (i j : Int)
    (hi : 0 ≤ i) (hil : i < (a.length : Int)) (hj : 0 ≤ j) (hjl : j < (a.length : Int)) :
    (listSwap a i j).getD j.toNat default = a.getD i.toNat default := by
  simp only [listSwap, List.getD_eq_getElem?_getD, List.getElem?_set, List.length_set,
    if_pos rfl]
  rw [if_pos (by omega : j.toNat < a.length)]
  simp

theorem keyAt_of_lt (val : CANFrame → Nat) (a : List CANFrame) (k : Int)
    (hk : k < (a.length : Int)) :
    keyAt val a k = val (a.getD k.toNat default) := by
  rw [keyAt, if_neg (by omega)]

theorem keyAt_listSwap_fst (val : CANFrame → Nat) (a : List CANFrame) (i j : Int)
    (hi : 0 ≤ i) (hil : i < (a.length : Int)) (hj : 0 ≤ j) (hjl : j < (a.length : Int)) :
    keyAt val (listSwap a i j) i = keyAt val a j := by
  rw [keyAt_of_lt val _ i (by rw [listSwap_length]; omega), keyAt_of_lt val a j hjl,
    getD_listSwap_fst a i j hi hil hj hjl]

theorem keyAt_listSwap_snd (val : CANFrame → Nat) (a : List CANFrame) (i j : Int)
    (hi : 0 ≤ i) (hil : i < (a.length : Int)) (hj : 0 ≤ j) (hjl : j < (a.length : Int)) :
    keyAt val (listSwap a i j) j = keyAt val a i := by
  rw [keyAt_of_lt val _ j (by rw [listSwap_length]; omega), keyAt_of_lt val a i hil,
    getD_listSwap_snd a i j hi hil hj hjl]

theorem keyAt_listSwap_other (val : CANFrame → Nat) (a : List CANFrame) (i j : Int)
    (k : Int) (hk : 0 ≤ k) (hki : k ≠ i) (hkj : k ≠ j) (hi : 0 ≤ i) (hj : 0 ≤ j) :
    keyAt val (listSwap a i j) k = keyAt val a k := by
  by_cases hkl : k < (a.length : Int)
  · rw [keyAt_of_lt val _ k (by rw [listSwap_length]; omega), keyAt_of_lt val a k hkl,
      getD_listSwap_other a i j k.toNat (by omega : k.toNat ≠ i.toNat)
        (by omega : k.toNat ≠ j.toNat)]
  · have hl2 : ((listSwap a i j).length : Int) ≤ k := by rw [listSwap_length]; omega
    rw [keyAt, keyAt, if_pos hl2, if_pos (by omega : (a.length : Int) ≤ k)]

theorem scanUp_passed (val : CANFrame → Nat) (lt : Nat → Nat → Bool) (a : List CANFrame)
    (upper : Int) (piv : Nat) (i : Int) (k : Int) (hik : i < k)
    (hk : k < scanUp val lt a upper piv i) : lt (keyAt val a k) piv = true := by
  rw [scanUp] at hk
  revert hk
  split
  · next h =>
    intro hk
    rcases eq_or_lt_of_le (show i + 1 ≤ k by omega) with h' | h'
    · exact h'.symm ▸ h.2
    · exact scanUp_passed val lt a upper piv (i + 1) k h' hk
  · intro hk
    omega
termination_by (upper - i).toNat
decreasing_by omega

theorem scanUp_stop (val : CANFrame → Nat) (lt : Nat → Nat → Bool) (a : List CANFrame)
    (upper : Int) (piv : Nat) (i : Int) :
    upper ≤ scanUp val lt a upper piv i ∨
      lt (keyAt val a (scanUp val lt a upper piv i)) piv = false := by
  rw [scanUp]
  split
  · exact scanUp_stop val lt a upper piv (i + 1)
  · next h =>
    by_cases hu : i + 1 < upper
    · right
      rcases Bool.eq_false_or_eq_true (lt (keyAt val a (i + 1)) piv) with ht | hf
      · exact absurd ⟨hu, ht⟩ h
      · exact hf
    · left
      omega
termination_by (upper - i).toNat
decreasing_by omega

theorem scanDown_passed (val : CANFrame → Nat) (lt : Nat → Nat → Bool) (a : List CANFrame)
    (lower : Int) (piv : Nat) (j : Int) (k : Int)
    (hk : scanDown val lt a lower piv j < k) (hkj : k < j) :
    lt piv (keyAt val a k) = true := by
  rw [scanDown] at hk
  revert hk
  split
  · next h =>
    intro hk
    rcases eq_or_lt_of_le (show k ≤ j - 1 by omega) with h' | h'
    · exact h' ▸ h.2
    · exact scanDown_passed val lt a lower piv (j - 1) k hk h'
  · intro hk
    omega
termination_by (j - lower).toNat
decreasing_by omega

theorem scanDown_stop (val : CANFrame → Nat) (lt : Nat → Nat → Bool) (a : List CANFrame)
    (lower : Int) (piv : Nat) (j : Int) :
    scanDown val lt a lower piv j ≤ lower ∨
      lt piv (keyAt val a (scanDown val lt a lower piv j)) = false := by
  rw [scanDown]
  split
  · exact scanDown_stop val lt a lower piv (j - 1)
  · next h =>
    by_cases hl : lower < j - 1
    · right
      rcases Bool.eq_false_or_eq_true (lt piv (keyAt val a (j - 1))) with ht | hf
      · exact absurd ⟨hl, ht⟩ h
      · exact hf
    · left
      omega
termination_by (j - lower).toNat
decreasing_by omega

/-- The `for (;;)` partition loop shared by `qSortCANFrameAsc` and
`qSortCANFrameDesc`: scan both pointers inward, swap and repeat while
they have not crossed, otherwise stop with `p = j`. -/
def partitionLoop (val : CANFrame → Nat) (lt : Nat → Nat → Bool)
    (lower upper : Int) (piv : Nat) (a : List CANFrame) (i j : Int) :
    List CANFrame × Int :=
  if h : scanUp val lt a upper piv i < scanDown val lt a lower piv j then
    partitionLoop val lt lower upper piv
      (listSwap a (scanUp val lt a upper piv i) (scanDown val lt a lower piv j))
      (scanUp val lt a upper piv i) (scanDown val lt a lower piv j)
  else (a, scanDown val lt a lower piv j)
termination_by (j - i).toNat
decreasing_by
  have h1 := scanUp_gt val lt a upper piv i
  have h2 := scanDown_lt val lt a lower piv j
  omega

theorem partitionLoop_snd_ge (val : CANFrame → Nat) (lt : Nat → Nat → Bool)
    (lower upper : Int) (piv : Nat) (a : List CANFrame) (i j : Int)
    (hi : lower - 1 ≤ i) (hj : lower < j) :
    lower ≤ (partitionLoop val lt lower upper piv a i j).2 := by
  rw [partitionLoop]
  split
  · next h =>
    have h1 := scanUp_gt val lt a upper piv i
    exact partitionLoop_snd_ge val lt lower upper piv _ _ _ (by omega) (by omega)
  · next h =>
    exact scanDown_ge val lt a lower piv j lower hj (by omega)
termination_by (j - i).toNat
decreasing_by
  have h1 := scanUp_gt val lt a upper piv i
  have h2 := scanDown_lt val lt a lower piv j
  omega

theorem partitionLoop_snd_lt (val : CANFrame → Nat) (lt : Nat → Nat → Bool)
    (lower upper : Int) (piv : Nat) (a : List CANFrame) (i j : Int)
    (hj : j ≤ upper + 1)
    (hyp : (∃ m, i < m ∧ m < upper ∧ lt (keyAt val a m) piv = false) ∨ j ≤ upper) :
    (partitionLoop val lt lower upper piv a i j).2 < upper := by
  rw [partitionLoop]
  split
  · next h =>
    have h2 := scanDown_lt val lt a lower piv j
    apply partitionLoop_snd_lt
    · omega
    · right
      omega
  · next h =>
    rcases hyp with ⟨m, him, hmu, hmf⟩ | hju
    · have h1 := scanUp_le val lt a upper piv i m him (by simp [hmf])
      omega
    · have h2 := scanDown_lt val lt a lower piv j
      omega
termination_by (j - i).toNat
decreasing_by
  have h1 := scanUp_gt val lt a upper piv i
  have h2 := scanDown_lt val lt a lower piv j
  omega

/-- Full specification of the partition loop: the resulting array has the
same length, is untouched outside `[lower, upper]`, keeps any predicate
that held of all rows of the segment, and is split at the returned `p`
into rows whose key is at most the pivot and rows whose key is at least
the pivot (in terms of the strict comparison `lt`). -/
theorem partitionLoop_spec (val : CANFrame → Nat) (lt : Nat → Nat → Bool)
    (hasym : ∀ x y, lt x y = true → lt y x = false)
    (lower upper : Int) (piv : Nat) (a : List CANFrame) (i j : Int)
    (hlow : 0 ≤ lower) (hlu : lower < upper) (hupl : upper < (a.length : Int))
    (hi1 : lower - 1 ≤ i) (hi2 : i < upper) (hj1 : lower < j) (hj2 : j ≤ upper + 1)
    (hInvL : ∀ k : Int, lower ≤ k → k ≤ i → lt piv (keyAt val a k) = false)
    (hInvR : ∀ k : Int, j ≤ k → k ≤ upper → lt (keyAt val a k) piv = false)
    (hInit : (lower ≤ i ∧ j ≤ upper) ∨
      (∃ m, i < m ∧ m < j ∧ m < upper ∧
        lt (keyAt val a m) piv = false ∧ lt piv (keyAt val a m) = false)) :
    (partitionLoop val lt lower upper piv a i j).1.length = a.length ∧
    (∀ k : Nat, ((k : Int) < lower ∨ upper < (k : Int)) →
      (partitionLoop val lt lower upper piv a i j).1.getD k default = a.getD k default) ∧
    (∀ Q : CANFrame → Prop,
      (∀ k : Nat, lower ≤ (k : Int) → (k : Int) ≤ upper → Q (a.getD k default)) →
      ∀ k : Nat, lower ≤ (k : Int) → (k : Int) ≤ upper →
        Q ((partitionLoop val lt lower upper piv a i j).1.getD k default)) ∧
    (∀ k : Int, lower ≤ k → k ≤ (partitionLoop val lt lower upper piv a i j).2 →
      lt piv (keyAt val (partitionLoop val lt lower upper piv a i j).1 k) = false) ∧
    (∀ k : Int, (partitionLoop val lt lower upper piv a i j).2 < k → k ≤ upper →
      lt (keyAt val (partitionLoop val lt lower upper piv a i j).1 k) piv = false) := by
  have hsu_gt := scanUp_gt val lt a upper piv i
  have hsd_lt := scanDown_lt val lt a lower piv j
  have hsu_le : scanUp val lt a upper piv i ≤ upper :=
    scanUp_le val lt a upper piv i upper hi2 (by simp)
  have hsd_ge : lower ≤ scanDown val lt a lower piv j :=
    scanDown_ge val lt a lower piv j lower hj1 (by simp)
  set su := scanUp val lt a upper piv i with hsu_def
  set sd := scanDown val lt a lower piv j with hsd_def
  by_cases hcond : su < sd
  · -- the loop swaps rows su and sd and continues
    have heq : partitionLoop val lt lower upper piv a i j =
        partitionLoop val lt lower upper piv (listSwap a su sd) su sd := by
      rw [partitionLoop]
      exact dif_pos hcond
    have hsu0 : 0 ≤ su := by omega
    have hsd0 : 0 ≤ sd := by omega
    have hsuL : su < (a.length : Int) := by omega
    have hsdL : sd < (a.length : Int) := by omega
    have hstopU : lt (keyAt val a su) piv = false := by
      rcases scanUp_stop val lt a upper piv i with h | h
      · omega
      · exact h
    have hstopD : lt piv (keyAt val a sd) = false := by
      rcases scanDown_stop val lt a lower piv j with h | h
      · omega
      · exact h
    have hrec := partitionLoop_spec val lt hasym lower upper piv (listSwap a su sd) su sd
      hlow hlu (by rw [listSwap_length]; omega)
      (by omega) (by omega) (by omega) (by omega)
      (by
        intro k hk1 hk2
        rcases eq_or_lt_of_le hk2 with hke | hkl
        · rw [hke, keyAt_listSwap_fst val a su sd hsu0 hsuL hsd0 hsdL]
          exact hstopD
        · rw [keyAt_listSwap_other val a su sd k (by omega) (by omega) (by omega) hsu0 hsd0]
          by_cases hki : k ≤ i
          · exact hInvL k hk1 hki
          · exact hasym _ _ (scanUp_passed val lt a upper piv i k (by omega) hkl))
      (by
        intro k hk1 hk2
        rcases eq_or_lt_of_le hk1 with hke | hkl
        · rw [← hke, keyAt_listSwap_snd val a su sd hsu0 hsuL hsd0 hsdL]
          exact hstopU
        · rw [keyAt_listSwap_other val a su sd k (by omega) (by omega) (by omega) hsu0 hsd0]
          by_cases hkj : j ≤ k
          · exact hInvR k hkj hk2
          · exact hasym _ _ (scanDown_passed val lt a lower piv j k hkl (by omega)))
      (Or.inl ⟨by omega, by omega⟩)
    obtain ⟨rlen, rout, rQ, rleft, rright⟩ := hrec
    rw [heq]
    refine ⟨by rw [rlen, listSwap_length], ?_, ?_, rleft, rright⟩
    · intro k hk
      rw [rout k hk]
      exact getD_listSwap_other a su sd k (by omega) (by omega)
    · intro Q hQ k hk1 hk2
      refine rQ Q ?_ k hk1 hk2
      intro k' hk1' hk2'
      rcases eq_or_ne k' su.toNat with he | hneu
      · rw [he, getD_listSwap_fst a su sd hsu0 hsuL hsd0 hsdL]
        exact hQ sd.toNat (by omega) (by omega)
      · rcases eq_or_ne k' sd.toNat with he2 | hned
        · rw [he2, getD_listSwap_snd a su sd hsu0 hsuL hsd0 hsdL]
          exact hQ su.toNat (by omega) (by omega)
        · rw [getD_listSwap_other a su sd k' hneu hned]
          exact hQ k' hk1' hk2'
  · -- the pointers crossed: the loop stops with p = sd
    have heq : partitionLoop val lt lower upper piv a i j = (a, sd) := by
      rw [partitionLoop]
      exact dif_neg hcond
    rw [heq]
    refine ⟨rfl, fun _ _ => rfl, fun Q hQ => hQ, ?_, ?_⟩
    · intro k hk1 hk2
      by_cases hki : k ≤ i
      · exact hInvL k hk1 hki
      · rcases lt_or_eq_of_le (show k ≤ su by omega) with hksu | hksu
        · exact hasym _ _ (scanUp_passed val lt a upper piv i k (by omega) hksu)
        · have hks : k = sd := by omega
          rcases scanDown_stop val lt a lower piv j with hs | hs
          · rcases hInit with ⟨hil, _⟩ | ⟨m, him, hmj, hmu, hmA, hmB⟩
            · omega
            · have hmsu : su ≤ m := scanUp_le val lt a upper piv i m him (by simp [hmA])
              have hmsd : m ≤ sd := scanDown_ge val lt a lower piv j m hmj (by simp [hmB])
              have hkm : k = m := by omega
              rw [hkm]
              exact hmB
          · rw [hks]
            exact hs
    · intro k hk1 hk2
      by_cases hkj : j ≤ k
      · exact hInvR k hkj hk2
      · exact hasym _ _ (scanDown_passed val lt a lower piv j k hk1 (by omega))
termination_by (j - i).toNat
decreasing_by omega

/-- The recursive quicksort body shared by `qSortCANFrameAsc` and
`qSortCANFrameDesc`: partition around the key of the middle row, then
recurse on `[lowerBound, p]` and `[p+1, upperBound]`.  `hirr` (the
comparison is irreflexive) guarantees the partition point stays strictly
below `upperBound`, which is what makes the original terminate. -/
def qSortGo (val : CANFrame → Nat) (lt : Nat → Nat → Bool)
    (hirr : ∀ x, lt x x = false) (a : List CANFrame)
    (lowerBound upperBound : Int) : List CANFrame :=
  if h : lowerBound < upperBound then
    qSortGo val lt hirr
      (qSortGo val lt hirr
        (partitionLoop val lt lowerBound upperBound
          (keyAt val a (lowerBound + (upperBound - lowerBound) / 2)) a
          (lowerBound - 1) (upperBound + 1)).1
        lowerBound
        (partitionLoop val lt lowerBound upperBound
          (keyAt val a (lowerBound + (upperBound - lowerBound) / 2)) a
          (lowerBound - 1) (upperBound + 1)).2)
      ((partitionLoop val lt lowerBound upperBound
          (keyAt val a (lowerBound + (upperBound - lowerBound) / 2)) a
          (lowerBound - 1) (upperBound + 1)).2 + 1)
      upperBound
  else a
termination_by (upperBound - lowerBound).toNat
decreasing_by
  · have hge := partitionLoop_snd_ge val lt lowerBound upperBound
      (keyAt val a (lowerBound + (upperBound - lowerBound) / 2)) a
      (lowerBound - 1) (upperBound + 1) (by omega) (by omega)
    have hlt := partitionLoop_snd_lt val lt lowerBound upperBound
      (keyAt val a (lowerBound + (upperBound - lowerBound) / 2)) a
      (lowerBound - 1) (upperBound + 1) (by omega)
      (Or.inl ⟨lowerBound + (upperBound - lowerBound) / 2, by omega, by omega,
        hirr _⟩)
    omega
  · have hge := partitionLoop_snd_ge val lt lowerBound upperBound
      (keyAt val a (lowerBound + (upperBound - lowerBound) / 2)) a
      (lowerBound - 1) (upperBound + 1) (by omega) (by omega)
    have hlt := partitionLoop_snd_lt val lt lowerBound upperBound
      (keyAt val a (lowerBound + (upperBound - lowerBound) / 2)) a
      (lowerBound - 1) (upperBound + 1) (by omega)
      (Or.inl ⟨lowerBound + (upperBound - lowerBound) / 2, by omega, by omega,
        hirr _⟩)
    omega

theorem keyAt_congr (val : CANFrame → Nat) (x y : List CANFrame) (k : Int)
    (hlen : x.length = y.length)
    (hget : x.getD k.toNat default = y.getD k.toNat default) :
    keyAt val x k = keyAt val y k := by
  by_cases hk : (x.length : Int) ≤ k
  · rw [keyAt, keyAt, if_pos hk, if_pos (by omega : (y.length : Int) ≤ k)]
  · rw [keyAt_of_lt val x k (by omega), keyAt_of_lt val y k (by omega), hget]

/-- Full specification of the quicksort recursion: it preserves the
length, leaves rows outside `[lowerBound, upperBound]` untouched, keeps
any predicate that held of all rows of the segment, and leaves the
segment sorted in the sense that no later row's key compares strictly
below an earlier row's key. -/
theorem qSortGo_spec (val : CANFrame → Nat) (lt : Nat → Nat → Bool)
    (hirr : ∀ x, lt x x = false)
    (hasym : ∀ x y, lt x y = true → lt y x = false)
    (hletrans : ∀ x y z, lt y x = false → lt z y = false → lt z x = false)
    (a : List CANFrame) (lowerBound upperBound : Int)
    (hlow : 0 ≤ lowerBound) (hupl : upperBound < (a.length : Int)) :
    (qSortGo val lt hirr a lowerBound upperBound).length = a.length ∧
    (∀ k : Nat, ((k : Int) < lowerBound ∨ upperBound < (k : Int)) →
      (qSortGo val lt hirr a lowerBound upperBound).getD k default = a.getD k default) ∧
    (∀ Q : CANFrame → Prop,
      (∀ k : Nat, lowerBound ≤ (k : Int) → (k : Int) ≤ upperBound → Q (a.getD k default)) →
      ∀ k : Nat, lowerBound ≤ (k : Int) → (k : Int) ≤ upperBound →
        Q ((qSortGo val lt hirr a lowerBound upperBound).getD k default)) ∧
    (∀ k k' : Int, lowerBound ≤ k → k ≤ k' → k' ≤ upperBound →
      lt (keyAt val (qSortGo val lt hirr a lowerBound upperBound) k')
         (keyAt val (qSortGo val lt hirr a lowerBound upperBound) k) = false) := by
  by_cases h : lowerBound < upperBound
  · set mid := lowerBound + (upperBound - lowerBound) / 2 with hmid_def
    set piv := keyAt val a mid with hpiv_def
    obtain ⟨pr, hpr_def⟩ : ∃ prr : List CANFrame × Int,
        prr = partitionLoop val lt lowerBound upperBound piv a
          (lowerBound - 1) (upperBound + 1) := ⟨_, rfl⟩
    have hmid1 : lowerBound ≤ mid := by omega
    have hmid2 : mid < upperBound := by omega
    have heq : qSortGo val lt hirr a lowerBound upperBound =
        qSortGo val lt hirr (qSortGo val lt hirr pr.1 lowerBound pr.2)
          (pr.2 + 1) upperBound := by
      rw [hpr_def, qSortGo]
      exact dif_pos h
    have hp := partitionLoop_spec val lt hasym lowerBound upperBound piv a
      (lowerBound - 1) (upperBound + 1) hlow h hupl
      (by omega) (by omega) (by omega) (by omega)
      (fun k hk1 hk2 => absurd hk1 (by omega))
      (fun k hk1 hk2 => absurd hk1 (by omega))
      (Or.inr ⟨mid, by omega, by omega, by omega, hirr piv, hirr piv⟩)
    rw [← hpr_def] at hp
    obtain ⟨plen, pout, pQ, pleft, pright⟩ := hp
    have hpge : lowerBound ≤ pr.2 := by
      rw [hpr_def]
      exact partitionLoop_snd_ge val lt lowerBound upperBound piv a
        (lowerBound - 1) (upperBound + 1) (by omega) (by omega)
    have hplt : pr.2 < upperBound := by
      rw [hpr_def]
      exact partitionLoop_snd_lt val lt lowerBound upperBound piv a
        (lowerBound - 1) (upperBound + 1) (by omega)
        (Or.inl ⟨mid, by omega, by omega, hirr piv⟩)
    have h1 := qSortGo_spec val lt hirr hasym hletrans pr.1 lowerBound pr.2
      hlow (by rw [plen]; omega)
    set b1 := qSortGo val lt hirr pr.1 lowerBound pr.2 with hb1_def
    obtain ⟨len1, out1, q1, sort1⟩ := h1
    have h2 := qSortGo_spec val lt hirr hasym hletrans b1 (pr.2 + 1) upperBound
      (by omega) (by rw [len1, plen]; omega)
    set b2 := qSortGo val lt hirr b1 (pr.2 + 1) upperBound with hb2_def
    obtain ⟨len2, out2, q2, sort2⟩ := h2
    rw [heq]
    have hlen2 : b2.length = a.length := by rw [len2, len1, plen]
    have hgetD_le : ∀ k : Nat, lowerBound ≤ (k : Int) → (k : Int) ≤ pr.2 →
        b2.getD k default = b1.getD k default := by
      intro k hk1 hk2
      exact out2 k (Or.inl (by omega))
    have hgetD_gt : ∀ k : Nat, pr.2 < (k : Int) → (k : Int) ≤ upperBound →
        b1.getD k default = pr.1.getD k default := by
      intro k hk1 hk2
      exact out1 k (Or.inr (by omega))
    refine ⟨hlen2, ?_, ?_, ?_⟩
    · intro k hk
      rw [out2 k (by omega), out1 k (by omega), pout k hk]
    · intro Q hQ k hk1 hk2
      have hQ1 : ∀ k : Nat, lowerBound ≤ (k : Int) → (k : Int) ≤ upperBound →
          Q (b1.getD k default) := by
        intro k' hk1' hk2'
        by_cases hk' : (k' : Int) ≤ pr.2
        · exact q1 Q (fun k'' hk1'' hk2'' => pQ Q hQ k'' hk1'' (by omega)) k' hk1' hk'
        · rw [hgetD_gt k' (by omega) hk2']
          exact pQ Q hQ k' hk1' hk2'
      by_cases hk' : (k : Int) ≤ pr.2
      · rw [hgetD_le k hk1 hk']
        exact hQ1 k hk1 hk2
      · exact q2 Q (fun k'' hk1'' hk2'' => hQ1 k'' (by omega) hk2'') k (by omega) hk2
    · -- sortedness of the segment
      have hkey_le : ∀ k : Int, lowerBound ≤ k → k ≤ pr.2 →
          lt piv (keyAt val b2 k) = false := by
        intro k hk1 hk2
        have hrange : k < (b1.length : Int) := by rw [len1, plen]; omega
        have e1 : keyAt val b2 k = keyAt val b1 k :=
          keyAt_congr val b2 b1 k (by rw [len2]) (hgetD_le k.toNat (by omega) (by omega))
        rw [e1, keyAt_of_lt val b1 k hrange]
        have := q1 (fun f => lt piv (val f) = false) ?_ k.toNat (by omega) (by omega)
        · exact this
        · intro k' hk1' hk2'
          have := pleft (k' : Int) hk1' hk2'
          rw [keyAt_of_lt val pr.1 (k' : Int) (by rw [plen]; omega)] at this
          simpa using this
      have hkey_ge : ∀ k : Int, pr.2 < k → k ≤ upperBound →
          lt (keyAt val b2 k) piv = false := by
        intro k hk1 hk2
        rw [keyAt_of_lt val b2 k (by rw [hlen2]; omega)]
        have := q2 (fun f => lt (val f) piv = false) ?_ k.toNat (by omega) (by omega)
        · exact this
        · intro k' hk1' hk2'
          rw [hgetD_gt k' (by omega) (by omega)]
          have := pright (k' : Int) (by omega) (by omega)
          rw [keyAt_of_lt val pr.1 (k' : Int) (by rw [plen]; omega)] at this
          simpa using this
      intro k k' hk1 hkk hk2
      by_cases hcase1 : k' ≤ pr.2
      · -- both in the left part, sorted by the first recursive call
        have e1 : keyAt val b2 k = keyAt val b1 k :=
          keyAt_congr val b2 b1 k (by rw [len2]) (hgetD_le k.toNat (by omega) (by omega))
        have e2 : keyAt val b2 k' = keyAt val b1 k' :=
          keyAt_congr val b2 b1 k' (by rw [len2]) (hgetD_le k'.toNat (by omega) (by omega))
        rw [e1, e2]
        exact sort1 k k' hk1 hkk hcase1
      · by_cases hcase2 : pr.2 < k
        · exact sort2 k k' (by omega) hkk hk2
        · exact hletrans (keyAt val b2 k) piv (keyAt val b2 k')
            (hkey_le k hk1 (by omega)) (hkey_ge k' (by omega) hk2)
  · have heq : qSortGo val lt hirr a lowerBound upperBound = a := by
      rw [qSortGo]
      exact dif_neg h
    rw [heq]
    refine ⟨rfl, fun _ _ => rfl, fun Q hQ => hQ, ?_⟩
    intro k k' hk1 hkk hk2
    have : k = k' := by omega
    rw [this]
    exact hirr _
termination_by (upperBound - lowerBound).toNat
decreasing_by
  · omega
  · omega

/-- `CANFrameModel::qSortCANFrameAsc` (src/scriptcontainer.cpp 350-379). -/
def qSortCANFrameAsc (overwriteDups : Bool) (frames : List CANFrame)
    (column : Column) (lowerBound upperBound : Int) : List CANFrame :=
  qSortGo (fun f => canFrameColVal overwriteDups f column)
    (fun x y => decide (x < y)) (by simp) frames lowerBound upperBound

/-- `CANFrameModel::qSortCANFrameDesc` (src/scriptcontainer.cpp 381-410). -/
def qSortCANFrameDesc (overwriteDups : Bool) (frames : List CANFrame)
    (column : Column) (lowerBound upperBound : Int) : List CANFrame :=
  qSortGo (fun f => canFrameColVal overwriteDups f column)
    (fun x y => decide (y < x)) (by simp) frames lowerBound upperBound

/-- `CANFrameModel::sortByColumn` (src/scriptcontainer.cpp 412-420):
toggle the direction flag, sort the full store, then `sendRefresh`. -/
def sortByColumn (m : CANFrameModel) (column : Column) : CANFrameModel :=
  let asc := !m.sortDirAsc
  let frames' :=
    if asc then
      qSortCANFrameAsc m.overwriteDups m.frames column 0 ((m.frames.length : Int) - 1)
    else
      qSortCANFrameDesc m.overwriteDups m.frames column 0 ((m.frames.length : Int) - 1)
  sendRefresh { m with sortDirAsc := asc, frames := frames' }

theorem qSortCANFrameAsc_sorted (dups : Bool) (frames : List CANFrame) (col : Column) :
    (qSortCANFrameAsc dups frames col 0 ((frames.length : Int) - 1)).length =
      frames.length ∧
    (∀ k k' : Int, 0 ≤ k → k ≤ k' → k' ≤ (frames.length : Int) - 1 →
      getCANFrameVal dups (qSortCANFrameAsc dups frames col 0 ((frames.length : Int) - 1))
          k col ≤
        getCANFrameVal dups (qSortCANFrameAsc dups frames col 0 ((frames.length : Int) - 1))
          k' col) := by
  have hs := qSortGo_spec (fun f => canFrameColVal dups f col)
    (fun x y => decide (x < y)) (by simp)
    (by intro x y h1; simp at h1 ⊢; omega)
    (by intro x y z h1 h2; simp at h1 h2 ⊢; omega)
    frames 0 ((frames.length : Int) - 1) (by omega) (by omega)
  obtain ⟨hlen, -, -, hsort⟩ := hs
  refine ⟨hlen, ?_⟩
  intro k k' h1 h2 h3
  have hz := hsort k k' h1 h2 h3
  rw [getCANFrameVal_eq_keyAt, getCANFrameVal_eq_keyAt]
  simp only [decide_eq_false_iff_not, not_lt] at hz
  exact hz

theorem qSortCANFrameDesc_sorted (dups : Bool) (frames : List CANFrame) (col : Column) :
    (qSortCANFrameDesc dups frames col 0 ((frames.length : Int) - 1)).length =
      frames.length ∧
    (∀ k k' : Int, 0 ≤ k → k ≤ k' → k' ≤ (frames.length : Int) - 1 →
      getCANFrameVal dups (qSortCANFrameDesc dups frames col 0 ((frames.length : Int) - 1))
          k' col ≤
        getCANFrameVal dups (qSortCANFrameDesc dups frames col 0 ((frames.length : Int) - 1))
          k col) := by
  have hs := qSortGo_spec (fun f => canFrameColVal dups f col)
    (fun x y => decide (y < x)) (by simp)
    (by intro x y h1; simp at h1 ⊢; omega)
    (by intro x y z h1 h2; simp at h1 h2 ⊢; omega)
    frames 0 ((frames.length : Int) - 1) (by omega) (by omega)
  obtain ⟨hlen, -, -, hsort⟩ := hs
  refine ⟨hlen, ?_⟩
  intro k k' h1 h2 h3
  have hz := hsort k k' h1 h2 h3
  rw [getCANFrameVal_eq_keyAt, getCANFrameVal_eq_keyAt]
  simp only [decide_eq_false_iff_not, not_lt] at hz
  exact hz

/-! ## Lemmas about the filter table operations -/

theorem fmContains_iff_lookup (m : FilterMap) (k : Nat) :
    fmContains m k = true ↔ ∃ v, fmLookup m k = some v := by
  induction m with
  | nil => simp [fmContains, fmLookup]
  | cons p t ih =>
    by_cases hp : p.1 = k
    · simp [fmContains, fmLookup, List.find?_cons, hp]
    · simp only [fmContains, List.any_cons, fmLookup, List.find?_cons]
      rw [show (p.1 == k) = false by simp [hp]]
      simp only [Bool.false_or]
      exact ih

theorem fm_mapset_self (k : Nat) (v : Bool) (m : FilterMap) (hc : fmContains m k = true) :
    fmLookup (m.map (fun p => if p.1 == k then (k, v) else p)) k = some v := by
  induction m with
  | nil => simp [fmContains] at hc
  | cons p t ih =>
    by_cases hp : p.1 = k
    · simp [fmLookup, List.find?_cons, hp]
    · rw [List.map_cons, if_neg (show ¬(p.1 == k) = true by simp [hp])]
      simp only [fmLookup, List.find?_cons]
      rw [show (p.1 == k) = false by simp [hp]]
      have hc' : fmContains t k = true := by
        rw [fmContains, List.any_cons, show (p.1 == k) = false by simp [hp],
          Bool.false_or] at hc
        exact hc
      exact ih hc'

theorem fm_append_self (k : Nat) (v : Bool) (m : FilterMap) (hc : fmContains m k = false) :
    fmLookup (m ++ [(k, v)]) k = some v := by
  have hnone : m.find? (fun p => p.1 == k) = none := by
    rw [List.find?_eq_none]
    intro p hp
    rw [fmContains] at hc
    have h2 := List.any_eq_false.mp hc p hp
    simpa using h2
  simp [fmLookup, List.find?_append, hnone, List.find?_cons]

theorem fm_mapset_other (k : Nat) (v : Bool) (k' : Nat) (hk : k' ≠ k) (m : FilterMap) :
    fmLookup (m.map (fun p => if p.1 == k then (k, v) else p)) k' = fmLookup m k' := by
  induction m with
  | nil => rfl
  | cons p t ih =>
    by_cases hp : p.1 = k
    · rw [List.map_cons, if_pos (show (p.1 == k) = true by simp [hp])]
      simp only [fmLookup, List.find?_cons]
      rw [show ((k, v).1 == k') = false by simp [Ne.symm hk],
        show (p.1 == k') = false by simp [hp, Ne.symm hk]]
      exact ih
    · rw [List.map_cons, if_neg (show ¬(p.1 == k) = true by simp [hp])]
      by_cases hp' : p.1 = k'
      · simp [fmLookup, List.find?_cons, hp']
      · simp only [fmLookup, List.find?_cons]
        rw [show (p.1 == k') = false by simp [hp']]
        exact ih

theorem fm_append_other (k : Nat) (v : Bool) (k' : Nat) (hk : k' ≠ k) (m : FilterMap) :
    fmLookup (m ++ [(k, v)]) k' = fmLookup m k' := by
  simp only [fmLookup, List.find?_append]
  cases hfound : m.find? (fun p => p.1 == k') with
  | some w => simp
  | none => simp [List.find?_cons, Ne.symm hk]

theorem fmLookup_fmInsert_self (m : FilterMap) (k : Nat) (v : Bool) :
    fmLookup (fmInsert m k v) k = some v := by
  rw [fmInsert]
  split
  · next hc => exact fm_mapset_self k v m hc
  · next hc => exact fm_append_self k v m (by simpa using hc)

theorem fmLookup_fmInsert_other (m : FilterMap) (k : Nat) (v : Bool) (k' : Nat)
    (hk : k' ≠ k) : fmLookup (fmInsert m k v) k' = fmLookup m k' := by
  rw [fmInsert]
  split
  · exact fm_mapset_other k v k' hk m
  · exact fm_append_other k v k' hk m

theorem fmOpIndex_of_lookup (m : FilterMap) (k : Nat) (v : Bool)
    (h : fmLookup m k = some v) : fmOpIndex m k = (v, m) := by
  rw [fmOpIndex, h]

theorem fmOpIndex_snd_lookup (m : FilterMap) (k k' : Nat) :
    ((fmLookup (fmOpIndex m k).2 k').getD false) = (fmLookup m k').getD false := by
  rw [fmOpIndex]
  cases h : fmLookup m k with
  | some v => rfl
  | none =>
    by_cases hk : k' = k
    · subst hk
      have hcf : fmContains m k' = false := by
        rcases Bool.eq_false_or_eq_true (fmContains m k') with ht | hf
        · rcases (fmContains_iff_lookup m k').mp ht with ⟨w, hw⟩
          rw [hw] at h
          cases h
        · exact hf
      rw [fm_append_self k' false m hcf, h]
      rfl
    · rw [fm_append_other k false k' hk m]

theorem fmOpIndex_snd_mono (m : FilterMap) (k k' : Nat) (v : Bool)
    (h : fmLookup m k' = some v) : fmLookup (fmOpIndex m k).2 k' = some v := by
  rw [fmOpIndex]
  cases hk : fmLookup m k with
  | some w => exact h
  | none =>
    have hkk : k' ≠ k := by
      intro he
      rw [he, hk] at h
      cases h
    rw [fm_append_other k false k' hkk m]
    exact h

theorem fmLookup_fmSetAll (m : FilterMap) (v : Bool) (k : Nat) :
    fmLookup (fmSetAll m v) k = (fmLookup m k).map (fun _ => v) := by
  induction m with
  | nil => simp [fmSetAll, fmLookup]
  | cons p t ih =>
    rw [fmSetAll, List.map_cons]
    by_cases hp : p.1 = k
    · simp [fmLookup, List.find?_cons, hp]
    · simp only [fmLookup, List.find?_cons]
      rw [show (p.1 == k) = false by simp [hp]]
      exact ih

theorem any_filters_iff (fs : FilterMap) :
    any_filters_are_configured fs = true ↔ ∃ p ∈ fs, p.2 = false := by
  rw [any_filters_are_configured, List.any_eq_true]
  constructor
  · rintro ⟨p, hm, hp⟩
    exact ⟨p, hm, by simpa using hp⟩
  · rintro ⟨p, hm, hp⟩
    exact ⟨p, hm, by simpa using hp⟩

/-- The view a refresh computes: the frames whose 7-bit key is enabled in
the filter table and whose protocol class is not filtered out. -/
theorem refreshLoop_spec (m : CANFrameModel) (F : FilterMap) (frames : List CANFrame) :
    ∀ (acc : List CANFrame) (fs : FilterMap),
      (∀ k, (fmLookup fs k).getD false = (fmLookup F k).getD false) →
      (frames.foldl (fun st f =>
        if (fmOpIndex st.2 (f.frameId &&& 0x7F)).1 &&
            filterFrameConsideringFunction m f.frameId then
          (st.1 ++ [f], (fmOpIndex st.2 (f.frameId &&& 0x7F)).2)
        else (st.1, (fmOpIndex st.2 (f.frameId &&& 0x7F)).2)) (acc, fs)).1 =
      acc ++ frames.filter (fun f =>
        (fmLookup F (f.frameId &&& 0x7F)).getD false &&
          filterFrameConsideringFunction m f.frameId) := by
  induction frames with
  | nil => intro acc fs hfs; simp
  | cons f t ih =>
    intro acc fs hfs
    have hv : (fmOpIndex fs (f.frameId &&& 0x7F)).1 =
        (fmLookup fs (f.frameId &&& 0x7F)).getD false := by
      rw [fmOpIndex]
      cases h : fmLookup fs (f.frameId &&& 0x7F) <;> rfl
    have hpres : ∀ k, (fmLookup (fmOpIndex fs (f.frameId &&& 0x7F)).2 k).getD false =
        (fmLookup F k).getD false := by
      intro k
      rw [fmOpIndex_snd_lookup]
      exact hfs k
    have hcc : ((fmOpIndex fs (f.frameId &&& 0x7F)).1 &&
        filterFrameConsideringFunction m f.frameId) =
        ((fmLookup F (f.frameId &&& 0x7F)).getD false &&
          filterFrameConsideringFunction m f.frameId) := by
      rw [hv, hfs]
    rw [List.foldl_cons, List.filter_cons]
    by_cases hb : ((fmLookup F (f.frameId &&& 0x7F)).getD false &&
        filterFrameConsideringFunction m f.frameId) = true
    · rw [if_pos hb]
      simp only [hcc, hb, if_true]
      rw [ih (acc ++ [f]) _ hpres]
      simp
    · rw [if_neg hb]
      simp only [hcc, eq_false_of_ne_true hb, if_false, Bool.false_eq_true]
      rw [ih acc _ hpres]

theorem sendRefresh_filteredFrames (m : CANFrameModel) :
    (sendRefresh m).filteredFrames =
      m.frames.filter (fun f =>
        (fmLookup m.filters (f.frameId &&& 0x7F)).getD false &&
          filterFrameConsideringFunction m f.frameId) := by
  have h := refreshLoop_spec m m.filters m.frames [] m.filters (fun _ => rfl)
  simpa [sendRefresh] using h

theorem addFrame_overwriteDups (m : CANFrameModel) (f : CANFrame) :
    (addFrame m f).overwriteDups = m.overwriteDups := by
  simp only [addFrame]
  repeat' split
  all_goals rfl

/-- What `addFrame` does to the filter table: a fresh key is inserted,
disabled when `any_filters_are_configured` holds, enabled otherwise; a
known key leaves the table unchanged. -/
theorem addFrame_filters (m : CANFrameModel) (f : CANFrame) :
    (addFrame m f).filters =
      if fmContains m.filters (f.frameId &&& 0x7F) then m.filters
      else if any_filters_are_configured m.filters then
        fmInsert m.filters (f.frameId &&& 0x7F) false
      else fmInsert m.filters (f.frameId &&& 0x7F) true := by
  by_cases hc : fmContains m.filters (f.frameId &&& 0x7F) = true
  · rw [if_pos hc]
    obtain ⟨v, hv⟩ := (fmContains_iff_lookup _ _).mp hc
    simp only [addFrame, hc, Bool.not_true, Bool.false_eq_true, if_false,
      fmOpIndex_of_lookup _ _ _ hv]
    repeat' split
    all_goals rfl
  · rw [if_neg hc]
    have hc' : fmContains m.filters (f.frameId &&& 0x7F) = false := by
      simpa using hc
    by_cases ha : any_filters_are_configured m.filters = true
    · rw [if_pos ha]
      have hv := fmLookup_fmInsert_self m.filters (f.frameId &&& 0x7F) false
      simp only [addFrame, hc', ha, Bool.not_false, if_true,
        fmOpIndex_of_lookup _ _ _ hv]
      repeat' split
      all_goals rfl
    · rw [if_neg ha]
      have hv := fmLookup_fmInsert_self m.filters (f.frameId &&& 0x7F) true
      simp only [addFrame, hc', eq_false_of_ne_true ha, Bool.not_false, if_true,
        Bool.false_eq_true, if_false, fmOpIndex_of_lookup _ _ _ hv]
      repeat' split
      all_goals rfl

/-- What `addFrame` does to the full store in dedup (overwrite) mode:
replace the first row with the same `(identifier, bus)` in place,
bumping its count, or append the frame when no row matches. -/
theorem addFrame_frames_dedup (m : CANFrameModel) (f : CANFrame)
    (hdup : m.overwriteDups = true) :
    (addFrame m f).frames =
      (match m.frames.findIdx? (fun g => g.frameId == f.frameId && g.bus == f.bus) with
       | some i =>
         m.frames.set i
           { f with
             timeStamp := (f.timeStamp - m.timeOffset)
             frameCount := (m.frames.getD i default).frameCount + 1
             timedelta := intToUInt64 ((f.timeStamp - m.timeOffset) -
               (m.frames.getD i default).timeStamp) }
       | none => m.frames ++ [{ f with timeStamp := (f.timeStamp - m.timeOffset) }]) := by
  by_cases hc : fmContains m.filters (f.frameId &&& 0x7F) = true
  · simp only [addFrame, hc, hdup, Bool.not_true, Bool.false_eq_true, if_false]
    repeat' split
    all_goals rfl
  · have hc' : fmContains m.filters (f.frameId &&& 0x7F) = false := by simpa using hc
    by_cases ha : any_filters_are_configured m.filters = true
    · simp only [addFrame, hc', ha, hdup, Bool.not_false, if_true, Bool.not_true,
        Bool.false_eq_true, if_false]
      repeat' split
      all_goals rfl
    · simp only [addFrame, hc', eq_false_of_ne_true ha, hdup, Bool.not_false, if_true,
        Bool.not_true, Bool.false_eq_true, if_false]
      repeat' split
      all_goals rfl

theorem countP_set_eq {α : Type _} (l : List α) (i : Nat) (x : α) (p : α → Bool)
    (hi : i < l.length) (hp : p x = p (l.get ⟨i, hi⟩)) :
    (l.set i x).countP p = l.countP p := by
  induction l generalizing i with
  | nil => simp at hi
  | cons a t ih =>
    cases i with
    | zero =>
      simp only [List.set_cons_zero, List.countP_cons]
      simp only [List.length_cons] at hi
      simp only [List.get] at hp
      rw [hp]
    | succ n =>
      simp only [List.set_cons_succ, List.countP_cons]
      rw [ih n (by simpa using hi) hp]

theorem pairwise_set_congr {α : Type _} {R : α → α → Prop} (l : List α) (i : Nat) (x : α)
    (hi : i < l.length)
    (hc1 : ∀ b, R (l.get ⟨i, hi⟩) b → R x b)
    (hc2 : ∀ b, R b (l.get ⟨i, hi⟩) → R b x)
    (h : l.Pairwise R) : (l.set i x).Pairwise R := by
  induction l generalizing i with
  | nil => simp
  | cons a t ih =>
    rcases List.pairwise_cons.mp h with ⟨ha, ht⟩
    cases i with
    | zero =>
      rw [List.set_cons_zero]
      refine List.pairwise_cons.mpr ⟨?_, ht⟩
      intro b hb
      exact hc1 b (ha b hb)
    | succ n =>
      rw [List.set_cons_succ]
      refine List.pairwise_cons.mpr ⟨?_, ?_⟩
      · intro b hb
        rcases List.mem_or_eq_of_mem_set hb with hbt | hbx
        · exact ha b hbt
        · subst hbx
          exact hc2 a (ha (t.get ⟨n, by simpa using hi⟩)
            (List.get_mem t n (by simpa using hi)))
      · exact ih n (by simpa using hi) hc1 hc2 ht

/-- One dedup-mode ingestion step preserves the store invariant: pairwise
distinct `(identifier, bus)` keys, exactly one row per observed pair, and
each row's `frameCount` equal to the number of processed frames with its
pair.  `P` is the list of frames processed so far. -/
theorem dedup_step (m : CANFrameModel) (f : CANFrame) (P : List CANFrame)
    (hdup : m.overwriteDups = true) (hfc : f.frameCount = 1)
    (hA : m.frames.Pairwise (fun g h => ¬(g.frameId = h.frameId ∧ g.bus = h.bus)))
    (hB : ∀ (id : Nat) (bus : Int),
      m.frames.countP (fun g => g.frameId == id && g.bus == bus) =
        if P.any (fun g => g.frameId == id && g.bus == bus) then 1 else 0)
    (hC : ∀ (i : Nat) (hi : i < m.frames.length),
      (m.frames.get ⟨i, hi⟩).frameCount =
        P.countP (fun g => g.frameId == (m.frames.get ⟨i, hi⟩).frameId &&
          g.bus == (m.frames.get ⟨i, hi⟩).bus)) :
    (addFrame m f).frames.Pairwise
      (fun g h => ¬(g.frameId = h.frameId ∧ g.bus = h.bus)) ∧
    (∀ (id : Nat) (bus : Int),
      (addFrame m f).frames.countP (fun g => g.frameId == id && g.bus == bus) =
        if (P ++ [f]).any (fun g => g.frameId == id && g.bus == bus) then 1 else 0) ∧
    (∀ (i : Nat) (hi : i < (addFrame m f).frames.length),
      ((addFrame m f).frames.get ⟨i, hi⟩).frameCount =
        (P ++ [f]).countP
          (fun g => g.frameId == ((addFrame m f).frames.get ⟨i, hi⟩).frameId &&
            g.bus == ((addFrame m f).frames.get ⟨i, hi⟩).bus)) := by
  rw [addFrame_frames_dedup m f hdup]
  cases hidx : m.frames.findIdx? (fun g => g.frameId == f.frameId && g.bus == f.bus) with
  | none =>
    simp only [hidx]
    have hnone := List.findIdx?_eq_none_iff.mp hidx
    have hnomatch : ∀ g ∈ m.frames, ¬(g.frameId = f.frameId ∧ g.bus = f.bus) := by
      intro g hg hgk
      have := hnone g hg
      simp [hgk.1, hgk.2] at this
    have hPany : P.any (fun g => g.frameId == f.frameId && g.bus == f.bus) = false := by
      have h0 : m.frames.countP (fun g => g.frameId == f.frameId && g.bus == f.bus) = 0 :=
        List.countP_eq_zero.mpr (fun g hg => by simp [hnone g hg])
      have hb := hB f.frameId f.bus
      rw [h0] at hb
      rcases Bool.eq_false_or_eq_true
          (P.any (fun g => g.frameId == f.frameId && g.bus == f.bus)) with ht | hff
      · rw [ht] at hb
        simp at hb
      · exact hff
    have hPcount : P.countP (fun g => g.frameId == f.frameId && g.bus == f.bus) = 0 :=
      List.countP_eq_zero.mpr (fun g hg => by
        have := List.any_eq_false.mp hPany g hg
        simpa using this)
    refine ⟨?_, ?_, ?_⟩
    · rw [List.pairwise_append]
      refine ⟨hA, by simp, ?_⟩
      intro a ha b hb
      simp only [List.mem_singleton] at hb
      subst hb
      intro hk
      exact hnomatch a ha (by simpa using hk)
    · intro id bus
      rw [List.countP_append, List.any_append]
      by_cases hmf : (f.frameId == id && f.bus == bus) = true
      · have hid : f.frameId = id ∧ f.bus = bus := by simpa using hmf
        have h0 : m.frames.countP (fun g => g.frameId == id && g.bus == bus) = 0 :=
          List.countP_eq_zero.mpr (fun g hg => by
            have := hnomatch g hg
            simp only [← hid.1, ← hid.2]
            simpa using this)
        rw [h0]
        simp [hmf]
      · have hmf' : (f.frameId == id && f.bus == bus) = false := by simpa using hmf
        rw [hB id bus]
        simp [hmf']
    · intro i hi
      have hi2 : i < m.frames.length + 1 := by simpa using hi
      simp only [List.get_eq_getElem]
      by_cases hi' : i < m.frames.length
      · rw [List.getElem_append_left hi']
        have hgmem : m.frames[i] ∈ m.frames := by simp
        have hfno : ((fun g => g.frameId == (m.frames[i]).frameId &&
            g.bus == (m.frames[i]).bus) f) = false := by
          have hnm := hnomatch _ hgmem
          rcases Bool.eq_false_or_eq_true (f.frameId == (m.frames[i]).frameId &&
              f.bus == (m.frames[i]).bus) with htr | hfa
          · exfalso
            have hh : f.frameId = (m.frames[i]).frameId ∧
                f.bus = (m.frames[i]).bus := by simpa using htr
            exact hnm ⟨hh.1.symm, hh.2.symm⟩
          · exact hfa
        rw [List.countP_append]
        simp only [List.countP_cons, List.countP_nil, hfno]
        have hCi := hC i hi'
        simp only [List.get_eq_getElem] at hCi
        simpa using hCi
      · have hieq : i = m.frames.length := by omega
        subst hieq
        have hb1 : m.frames.length <
            (m.frames ++ [{ f with timeStamp := (f.timeStamp - m.timeOffset) }]).length := by
          simpa using hi
        have hget : (m.frames ++
            [{ f with timeStamp := (f.timeStamp - m.timeOffset) }])[m.frames.length] =
            { f with timeStamp := (f.timeStamp - m.timeOffset) } := by
          simp
        rw [hget]
        rw [List.countP_append]
        simp only [List.countP_cons, List.countP_nil]
        have hself : ((fun g => g.frameId == f.frameId && g.bus == f.bus) f) = true := by simp
        simp only [hself]
        rw [hPcount]
        simpa using hfc
  | some i =>
    simp only [hidx]
    obtain ⟨hilen, hpi, -⟩ := List.findIdx?_eq_some_iff_getElem.mp hidx
    have hfid : (m.frames[i]).frameId = f.frameId ∧ (m.frames[i]).bus = f.bus := by
      simpa using hpi
    have hgetD : m.frames.getD i default = m.frames[i] := by
      rw [List.getD_eq_getElem?_getD, List.getElem?_eq_getElem hilen]
      rfl
    refine ⟨?_, ?_, ?_⟩
    · refine pairwise_set_congr m.frames i _ hilen ?_ ?_ hA
      · intro b hb hk
        exact hb (by simpa [hgetD, hfid.1, hfid.2] using hk)
      · intro b hb hk
        exact hb (by simpa [hgetD, hfid.1, hfid.2] using hk)
    · intro id bus
      rw [countP_set_eq _ i _ _ hilen (by simp [hgetD, hfid.1, hfid.2]), hB id bus,
        List.any_append]
      by_cases hmf : (f.frameId == id && f.bus == bus) = true
      · have hPany : P.any (fun g => g.frameId == id && g.bus == bus) = true := by
          have hcnt : m.frames.countP (fun g => g.frameId == id && g.bus == bus) ≠ 0 := by
            intro h0
            have := List.countP_eq_zero.mp h0 (m.frames[i]) (by simp)
            have hh : f.frameId = id ∧ f.bus = bus := by simpa using hmf
            exact this (by simp [hfid.1, hfid.2, hh.1, hh.2])
          rcases Bool.eq_false_or_eq_true
              (P.any (fun g => g.frameId == id && g.bus == bus)) with ht | hff
          · exact ht
          · rw [hB id bus, hff] at hcnt
            simp at hcnt
        simp [hPany]
      · have hmf' : (f.frameId == id && f.bus == bus) = false := by simpa using hmf
        simp [hmf']
    · intro j hj
      have hj' : j < m.frames.length := by simpa using hj
      simp only [List.get_eq_getElem]
      by_cases hji : j = i
      · subst hji
        rw [List.getElem_set_self (by simpa using hj)]
        simp only [hgetD]
        rw [List.countP_append]
        simp only [List.countP_cons, List.countP_nil]
        have hself : ((fun g => g.frameId == f.frameId && g.bus == f.bus) f) = true := by simp
        simp only [hself]
        have hCi := hC j hj'
        simp only [List.get_eq_getElem] at hCi
        have hrw : P.countP (fun g => g.frameId == (m.frames[j]).frameId &&
            g.bus == (m.frames[j]).bus) =
            P.countP (fun g => g.frameId == f.frameId && g.bus == f.bus) := by
          rw [hfid.1, hfid.2]
        simp only [hCi, hrw] at *
        simp
      · rw [List.getElem_set_ne (Ne.symm hji) (by simpa using hj)]
        have hdistinct : ¬((m.frames[j]).frameId = f.frameId ∧
            (m.frames[j]).bus = f.bus) := by
          have hpw := List.pairwise_iff_getElem.mp hA
          intro hk
          rcases Nat.lt_or_ge j i with hlt | hge
          · exact hpw j i hj' hilen hlt
              ⟨hk.1.trans hfid.1.symm, hk.2.trans hfid.2.symm⟩
          · have hlt' : i < j := by omega
            exact hpw i j hilen hj' hlt'
              ⟨hfid.1.trans hk.1.symm, hfid.2.trans hk.2.symm⟩
        rw [List.countP_append]
        simp only [List.countP_cons, List.countP_nil]
        have hfno : ((fun g => g.frameId == (m.frames[j]).frameId &&
            g.bus == (m.frames[j]).bus) f) = false := by
          rcases Bool.eq_false_or_eq_true (f.frameId == (m.frames[j]).frameId &&
              f.bus == (m.frames[j]).bus) with htr | hfa
          · exfalso
            have hh : f.frameId = (m.frames[j]).frameId ∧
                f.bus = (m.frames[j]).bus := by simpa using htr
            exact hdistinct ⟨hh.1.symm, hh.2.symm⟩
          · exact hfa
        simp only [hfno]
        have hCj := hC j hj'
        simp only [List.get_eq_getElem] at hCj
        simpa using hCj

/-- The dedup invariant carried over a whole ingested sequence. -/
theorem dedup_ingest (inputs : List CANFrame) :
    ∀ (m : CANFrameModel) (P : List CANFrame), m.overwriteDups = true →
    (∀ f ∈ inputs, f.frameCount = 1) →
    m.frames.Pairwise (fun g h => ¬(g.frameId = h.frameId ∧ g.bus = h.bus)) →
    (∀ (id : Nat) (bus : Int),
      m.frames.countP (fun g => g.frameId == id && g.bus == bus) =
        if P.any (fun g => g.frameId == id && g.bus == bus) then 1 else 0) →
    (∀ (i : Nat) (hi : i < m.frames.length),
      (m.frames.get ⟨i, hi⟩).frameCount =
        P.countP (fun g => g.frameId == (m.frames.get ⟨i, hi⟩).frameId &&
          g.bus == (m.frames.get ⟨i, hi⟩).bus)) →
    (inputs.foldl addFrame m).frames.Pairwise
      (fun g h => ¬(g.frameId = h.frameId ∧ g.bus = h.bus)) ∧
    (∀ (id : Nat) (bus : Int),
      (inputs.foldl addFrame m).frames.countP (fun g => g.frameId == id && g.bus == bus) =
        if (P ++ inputs).any (fun g => g.frameId == id && g.bus == bus) then 1 else 0) ∧
    (∀ (i : Nat) (hi : i < (inputs.foldl addFrame m).frames.length),
      ((inputs.foldl addFrame m).frames.get ⟨i, hi⟩).frameCount =
        (P ++ inputs).countP
          (fun g => g.frameId == ((inputs.foldl addFrame m).frames.get ⟨i, hi⟩).frameId &&
            g.bus == ((inputs.foldl addFrame m).frames.get ⟨i, hi⟩).bus)) := by
  induction inputs with
  | nil =>
    intro m P hdup hfc hA hB hC
    simp only [List.foldl_nil, List.append_nil]
    exact ⟨hA, hB, hC⟩
  | cons f t ih =>
    intro m P hdup hfc hA hB hC
    obtain ⟨hA', hB', hC'⟩ := dedup_step m f P hdup (hfc f (by simp)) hA hB hC
    have hres := ih (addFrame m f) (P ++ [f])
      (by rw [addFrame_overwriteDups]; exact hdup)
      (fun g hg => hfc g (by simp [hg])) hA' hB' hC'
    rw [List.append_assoc, List.singleton_append] at hres
    simp only [List.foldl_cons]
    exact hres

/-- The filter table after one step of the `insertFrames` loop: an unseen
key is registered enabled, a known key is untouched. -/
theorem insertFrames_step_filters (acc : CANFrameModel) (f : CANFrame) :
    ((fun (acc : CANFrameModel) (f : CANFrame) =>
      let key := f.frameId &&& 0x7F
      let acc := { acc with frames := acc.frames ++ [f] }
      let acc :=
        if !fmContains acc.filters key then
          { acc with filters := fmInsert acc.filters key true, needFilterRefresh := true }
        else acc
      let r := fmOpIndex acc.filters key
      let acc := { acc with filters := r.2 }
      if r.1 && filterFrameConsideringFunction acc f.frameId then
        { acc with filteredFrames := acc.filteredFrames ++ [f] }
      else acc) acc f).filters =
      if fmContains acc.filters (f.frameId &&& 0x7F) then acc.filters
      else fmInsert acc.filters (f.frameId &&& 0x7F) true := by
  by_cases hc : fmContains acc.filters (f.frameId &&& 0x7F) = true
  · rw [if_pos hc]
    obtain ⟨v, hv⟩ := (fmContains_iff_lookup _ _).mp hc
    simp only [hc, Bool.not_true, Bool.false_eq_true, if_false,
      fmOpIndex_of_lookup _ _ _ hv]
    split
    all_goals rfl
  · have hc' : fmContains acc.filters (f.frameId &&& 0x7F) = false := by simpa using hc
    rw [if_neg hc]
    have hv := fmLookup_fmInsert_self acc.filters (f.frameId &&& 0x7F) true
    simp only [hc', Bool.not_false, if_true, fmOpIndex_of_lookup _ _ _ hv]
    split
    all_goals rfl

/-- Over the whole `insertFrames` loop, existing filter entries keep their
value and every key seen in the batch while absent ends up enabled. -/
theorem insertFrames_fold_filters (newFrames : List CANFrame) :
    ∀ (acc : CANFrameModel),
    (∀ (k : Nat) (v : Bool), fmLookup acc.filters k = some v →
      fmLookup ((newFrames.foldl (fun (acc : CANFrameModel) (f : CANFrame) =>
        let key := f.frameId &&& 0x7F
        let acc := { acc with frames := acc.frames ++ [f] }
        let acc :=
          if !fmContains acc.filters key then
            { acc with filters := fmInsert acc.filters key true, needFilterRefresh := true }
          else acc
        let r := fmOpIndex acc.filters key
        let acc := { acc with filters := r.2 }
        if r.1 && filterFrameConsideringFunction acc f.frameId then
          { acc with filteredFrames := acc.filteredFrames ++ [f] }
        else acc) acc)).filters k = some v) ∧
    (∀ k : Nat, fmLookup acc.filters k = none →
      (∃ f ∈ newFrames, f.frameId &&& 0x7F = k) →
      fmLookup ((newFrames.foldl (fun (acc : CANFrameModel) (f : CANFrame) =>
        let key := f.frameId &&& 0x7F
        let acc := { acc with frames := acc.frames ++ [f] }
        let acc :=
          if !fmContains acc.filters key then
            { acc with filters := fmInsert acc.filters key true, needFilterRefresh := true }
          else acc
        let r := fmOpIndex acc.filters key
        let acc := { acc with filters := r.2 }
        if r.1 && filterFrameConsideringFunction acc f.frameId then
          { acc with filteredFrames := acc.filteredFrames ++ [f] }
        else acc) acc)).filters k = some true) := by
  induction newFrames with
  | nil =>
    intro acc
    exact ⟨fun k v hv => hv, fun k hk hex => by simp at hex⟩
  | cons f t ih =>
    intro acc
    rw [List.foldl_cons]
    have hstep := insertFrames_step_filters acc f
    constructor
    · intro k v hv
      refine (ih _).1 k v ?_
      rw [hstep]
      split
      · exact hv
      · next hnc =>
        have hkk : k ≠ f.frameId &&& 0x7F := by
          intro he
          rw [he] at hv
          exact hnc ((fmContains_iff_lookup _ _).mpr ⟨v, hv⟩)
        rw [fmLookup_fmInsert_other _ _ _ _ hkk]
        exact hv
    · intro k hk hex
      by_cases hkey : f.frameId &&& 0x7F = k
      · refine (ih _).1 k true ?_
        rw [hstep]
        have hnc : fmContains acc.filters (f.frameId &&& 0x7F) = false := by
          rcases Bool.eq_false_or_eq_true (fmContains acc.filters (f.frameId &&& 0x7F))
            with ht | hf
          · obtain ⟨w, hw⟩ := (fmContains_iff_lookup _ _).mp ht
            rw [hkey, hk] at hw
            cases hw
          · exact hf
        rw [if_neg (by simp [hnc]), hkey]
        exact fmLookup_fmInsert_self _ _ _
      · refine (ih _).2 k ?_ ?_
        · rw [hstep]
          split
          · exact hk
          · rw [fmLookup_fmInsert_other _ _ _ _ (fun he => hkey he.symm)]
            exact hk
        · obtain ⟨g, hg, hgk⟩ := hex
          rcases List.mem_cons.mp hg with hgf | hgt
          · exact absurd (hgf ▸ hgk) hkey
          · exact ⟨g, hgt, hgk⟩

/-! ## Lemmas about the bit extractor -/

/-- Bitwise-or of a multiple of `2 ^ k` with a value below `2 ^ k` is
their sum. -/
theorem lor_mul_pow_add (k b a : Nat) (h : a < 2 ^ k) :
    ((2 ^ k * b) ||| a) = 2 ^ k * b + a := by
  apply Nat.eq_of_testBit_eq
  intro i
  rw [Nat.testBit_lor]
  by_cases hik : i < k
  · have hsplit : (2 : Nat) ^ k = 2 ^ i * (2 * 2 ^ (k - i - 1)) := by
      rw [← pow_succ']
      rw [← pow_add]
      congr 1
      omega
    have hd1 : 2 ^ k * b / 2 ^ i = 2 * (2 ^ (k - i - 1) * b) := by
      rw [hsplit, Nat.mul_assoc, Nat.mul_div_cancel_left _ (Nat.pos_pow_of_pos i (by omega))]
      ring
    have hb1 : (2 ^ k * b).testBit i = false := by
      rw [Nat.testBit_to_div_mod, hd1]
      simp [Nat.mul_mod_right]
    have hd2 : (2 ^ k * b + a) / 2 ^ i = a / 2 ^ i + 2 * (2 ^ (k - i - 1) * b) := by
      rw [Nat.add_comm (2 ^ k * b) a, hsplit, Nat.mul_assoc,
        Nat.mul_comm (2 ^ i) (2 * 2 ^ (k - i - 1) * b)]
      rw [show 2 * 2 ^ (k - i - 1) * b * 2 ^ i = 2 * (2 ^ (k - i - 1) * b) * 2 ^ i by ring]
      rw [Nat.add_mul_div_right _ _ (Nat.pos_pow_of_pos i (by omega))]
    have hb2 : (2 ^ k * b + a).testBit i = a.testBit i := by
      rw [Nat.testBit_to_div_mod, Nat.testBit_to_div_mod, hd2]
      simp [Nat.add_mul_mod_self_left]
    rw [hb1, hb2, Bool.false_or]
  · have hik' : k ≤ i := by omega
    have ha : a.testBit i = false :=
      Nat.testBit_lt_two_pow (lt_of_lt_of_le h (Nat.pow_le_pow_right (by omega) hik'))
    have hsplit : (2 : Nat) ^ i = 2 ^ k * 2 ^ (i - k) := by
      rw [← pow_add]
      congr 1
      omega
    have hd1 : 2 ^ k * b / 2 ^ i = b / 2 ^ (i - k) := by
      rw [hsplit, ← Nat.div_div_eq_div_mul,
        Nat.mul_div_cancel_left _ (Nat.pos_pow_of_pos k (by omega))]
    have hd2 : (2 ^ k * b + a) / 2 ^ i = b / 2 ^ (i - k) := by
      rw [hsplit, ← Nat.div_div_eq_div_mul, Nat.add_comm (2 ^ k * b) a,
        Nat.mul_comm (2 ^ k) b,
        Nat.add_mul_div_right _ _ (Nat.pos_pow_of_pos k (by omega)),
        Nat.div_eq_of_lt h]
      simp
    rw [ha, Bool.or_false, Nat.testBit_to_div_mod, Nat.testBit_to_div_mod, hd1, hd2]

/-- Bound on the little-endian accumulation loop: bits are added at
strictly increasing positions starting at `bitpos`. -/
theorem leBits_le (data : List Nat) :
    ∀ (n bitpos bit acc a : Nat), leBits data n bitpos bit acc = some a →
      a ≤ acc + (2 ^ (bitpos + n) - 2 ^ bitpos) := by
  intro n
  induction n with
  | zero =>
    intro bitpos bit acc a h
    simp only [leBits, Option.some_inj] at h
    omega
  | succ n ih =>
    intro bitpos bit acc a h
    have hexp : bitpos + 1 + n = bitpos + (n + 1) := by omega
    have he1 : (2 : Nat) ^ (bitpos + 1) = 2 * 2 ^ bitpos := by
      rw [pow_succ]
      ring
    have he2 : (2 : Nat) ^ (bitpos + 1) ≤ 2 ^ (bitpos + (n + 1)) :=
      Nat.pow_le_pow_right (by omega) (by omega)
    have he3 : (2 : Nat) ^ bitpos ≤ 2 ^ (bitpos + 1) :=
      Nat.pow_le_pow_right (by omega) (by omega)
    simp only [leBits] at h
    split at h
    · split at h
      · cases h
      · have := ih (bitpos + 1) (bit + 1) _ a h
        rw [hexp] at this
        split at this <;> omega
    · have := ih (bitpos + 1) (bit + 1) acc a h
      rw [hexp] at this
      omega

/-- Bound on the Motorola accumulation loop: bits are added at strictly
decreasing positions below `sigSize - bitpos`. -/
theorem beBits_le (data : List Nat) (s : Nat) :
    ∀ (n bitpos bit acc a : Nat), bitpos + n ≤ s →
      beBits data s n bitpos bit acc = some a →
      a ≤ acc + (2 ^ (s - bitpos) - 2 ^ (s - bitpos - n)) := by
  intro n
  induction n with
  | zero =>
    intro bitpos bit acc a hs h
    simp only [beBits, Option.some_inj] at h
    omega
  | succ n ih =>
    intro bitpos bit acc a hs h
    have hexp1 : s - (bitpos + 1) = s - bitpos - 1 := by omega
    have hexp3 : s - bitpos - 1 - n = s - bitpos - (n + 1) := by omega
    have he1 : (2 : Nat) ^ (s - bitpos) = 2 * 2 ^ (s - bitpos - 1) := by
      rw [← pow_succ']
      congr 1
      omega
    have he2 : (2 : Nat) ^ (s - bitpos - (n + 1)) ≤ 2 ^ (s - bitpos - 1) :=
      Nat.pow_le_pow_right (by omega) (by omega)
    simp only [beBits] at h
    split at h
    · split at h
      · cases h
      · have := ih (bitpos + 1) _ _ a (by omega) h
        rw [hexp1, hexp3] at this
        split at this <;> omega
    · have := ih (bitpos + 1) _ acc a (by omega) h
      rw [hexp1, hexp3] at this
      omega

/-- If some little-endian loop iteration would probe a byte outside the
payload (at a bit position below 64), the loop aborts with `none`. -/
theorem leBits_none (data : List Nat) :
    ∀ (n bitpos bit acc : Nat),
      (∃ i, i < n ∧ bit + i < 64 ∧ data.length ≤ (bit + i) / 8) →
      leBits data n bitpos bit acc = none := by
  intro n
  induction n with
  | zero =>
    intro bitpos bit acc ⟨i, hi, _, _⟩
    omega
  | succ n ih =>
    intro bitpos bit acc ⟨i, hi, hb, hlen⟩
    simp only [leBits]
    split
    · split
      · rfl
      · next hinr =>
        cases i with
        | zero => omega
        | succ i' =>
          exact ih (bitpos + 1) (bit + 1) _ ⟨i', by omega, by omega,
            by have : bit + 1 + i' = bit + (i' + 1) := by omega
               rw [this]
               exact hlen⟩
    · next hb64 =>
      cases i with
      | zero => omega
      | succ i' =>
        exact ih (bitpos + 1) (bit + 1) acc ⟨i', by omega, by omega,
          by have : bit + 1 + i' = bit + (i' + 1) := by omega
             rw [this]
             exact hlen⟩

/-- If some Motorola loop iteration would probe a byte outside the
payload (at a bit position below 64), the loop aborts with `none`. -/
theorem beBits_none (data : List Nat) (s : Nat) :
    ∀ (n bitpos bit acc : Nat),
      (∃ i, i < n ∧ motorolaNext^[i] bit < 64 ∧ data.length ≤ motorolaNext^[i] bit / 8) →
      beBits data s n bitpos bit acc = none := by
  intro n
  induction n with
  | zero =>
    intro bitpos bit acc ⟨i, hi, _, _⟩
    omega
  | succ n ih =>
    intro bitpos bit acc ⟨i, hi, hb, hlen⟩
    simp only [beBits]
    split
    · split
      · rfl
      · next hinr =>
        cases i with
        | zero =>
          simp only [Function.iterate_zero, id] at hb hlen
          omega
        | succ i' =>
          refine ih (bitpos + 1) _ _ ⟨i', by omega, ?_, ?_⟩
          · rw [show (if bit % 8 == 0 then bit + 15 else bit - 1) = motorolaNext bit
              from rfl, ← Function.iterate_succ_apply]
            exact hb
          · rw [show (if bit % 8 == 0 then bit + 15 else bit - 1) = motorolaNext bit
              from rfl, ← Function.iterate_succ_apply]
            exact hlen
    · next hb64 =>
      cases i with
      | zero =>
        simp only [Function.iterate_zero, id] at hb
        omega
      | succ i' =>
        refine ih (bitpos + 1) _ acc ⟨i', by omega, ?_, ?_⟩
        · rw [show (if bit % 8 == 0 then bit + 15 else bit - 1) = motorolaNext bit
            from rfl, ← Function.iterate_succ_apply]
          exact hb
        · rw [show (if bit % 8 == 0 then bit + 15 else bit - 1) = motorolaNext bit
            from rfl, ← Function.iterate_succ_apply]
          exact hlen

theorem toInt64_of_lt (r : Nat) (h : r < 2 ^ 63) : toInt64 r = (r : Int) := by
  rw [toInt64, Nat.mod_eq_of_lt (by omega), if_pos (by omega)]

theorem toInt64_of_ge (r : Nat) (h1 : 2 ^ 63 ≤ r) (h2 : r < 2 ^ 64) :
    toInt64 r = (r : Int) - 2 ^ 64 := by
  rw [toInt64, Nat.mod_eq_of_lt (by omega), if_neg (by omega)]

theorem and_pow_beq (r i : Nat) : (r &&& 2 ^ i == 2 ^ i) = r.testBit i := by
  rw [Nat.and_two_pow]
  cases h : r.testBit i
  · simp only [Bool.toNat_false, Nat.zero_mul]
    have hpos : (0 : Nat) ≠ 2 ^ i := fun he => (Nat.pos_pow_of_pos i (by omega)).ne' he.symm
    simp [hpos]
  · simp

/-- The raw field value produced by either accumulation loop fits in
`sigSize` bits. -/
theorem rawField_lt (data : List Nat) (startBit sigSize : Nat) (littleEndian : Bool)
    (h64 : sigSize ≤ 64) (r : Nat)
    (hr : (if littleEndian then leBits data sigSize 0 startBit 0
      else beBits data sigSize sigSize 0 startBit 0) = some r) : r < 2 ^ sigSize := by
  have hp : (1 : Nat) ≤ 2 ^ sigSize := Nat.one_le_two_pow
  split at hr
  · have hb := leBits_le data sigSize 0 startBit 0 r hr
    simp only [Nat.zero_add, pow_zero] at hb
    omega
  · have hb := beBits_le data sigSize sigSize 0 startBit 0 r (by omega) hr
    simp only [Nat.sub_zero, Nat.sub_self, pow_zero] at hb
    omega

/-- Core sign-extension relation between the signed and unsigned decodes
of the same bits: they agree when the sign bit of the unsigned decode is
clear, and differ by `2 ^ sigSize` when it is set. -/
theorem processIntegerSignal_signed_spec (data : List Nat) (startBit sigSize : Nat)
    (littleEndian : Bool) (h1 : 1 ≤ sigSize) (h64 : sigSize ≤ 64) :
    ((processIntegerSignal data startBit sigSize littleEndian false).toNat.testBit
        (sigSize - 1) = false →
      processIntegerSignal data startBit sigSize littleEndian true =
        processIntegerSignal data startBit sigSize littleEndian false) ∧
    ((processIntegerSignal data startBit sigSize littleEndian false).toNat.testBit
        (sigSize - 1) = true →
      processIntegerSignal data startBit sigSize littleEndian true =
        processIntegerSignal data startBit sigSize littleEndian false - 2 ^ sigSize) := by
  obtain ⟨raw, hraw⟩ : ∃ x, x = (if littleEndian then leBits data sigSize 0 startBit 0
      else beBits data sigSize sigSize 0 startBit 0) := ⟨_, rfl⟩
  simp only [processIntegerSignal, ← hraw, Bool.false_eq_true, eq_self_iff_true,
    if_false, if_true]
  by_cases hpre : data.length < (startBit + sigSize) / 8
  · simp [if_pos hpre]
  · simp only [if_neg hpre]
    cases hr : raw with
    | none => exact ⟨fun _ => rfl, fun hbit => by simp at hbit⟩
    | some r =>
      have hrlt : r < 2 ^ sigSize :=
        rawField_lt data startBit sigSize littleEndian h64 r (hraw ▸ hr)
      have h2le : (2 : Nat) ^ sigSize ≤ 2 ^ 64 := Nat.pow_le_pow_right (by omega) h64
      have h1p : (1 : Nat) ≤ 2 ^ sigSize := Nat.one_le_two_pow
      have hsm : (2 : Nat) ^ 64 - 1 - ((2 ^ sigSize - 1) % 2 ^ 64) =
          2 ^ 64 - 2 ^ sigSize := by
        rw [Nat.mod_eq_of_lt (by omega)]
        omega
      have hcond := and_pow_beq r (sigSize - 1)
      simp only [hsm]
      cases hst : r.testBit (sigSize - 1) with
      | false =>
        rw [hst] at hcond
        simp only [hcond, Bool.false_eq_true, if_false]
        have hr63 : r < 2 ^ 63 := by
          by_cases hs64 : sigSize ≤ 63
          · exact lt_of_lt_of_le hrlt (Nat.pow_le_pow_right (by omega) hs64)
          · have hseq : sigSize = 64 := by omega
            subst hseq
            by_contra hge
            have hbit : r.testBit 63 = true := by
              rw [Nat.testBit_to_div_mod]
              simp only [decide_eq_true_eq]
              omega
            rw [show (64 : Nat) - 1 = 63 from rfl] at hst
            rw [hst] at hbit
            cases hbit
        rw [toInt64_of_lt r hr63]
        refine ⟨fun _ => True.intro, fun hbit => ?_⟩
        rw [Int.toNat_natCast, hst] at hbit
        cases hbit
      | true =>
        rw [hst] at hcond
        simp only [hcond, eq_self_iff_true, if_true]
        by_cases hs64 : sigSize = 64
        · subst hs64
          have hsm0 : (2 : Nat) ^ 64 - 2 ^ 64 = 0 := by omega
          rw [hsm0, Nat.zero_or]
          have hgr : 2 ^ 63 ≤ r := by
            have hd := hst
            rw [show (64 : Nat) - 1 = 63 from rfl, Nat.testBit_to_div_mod] at hd
            simp only [decide_eq_true_eq] at hd
            omega
          rw [toInt64_of_ge r hgr (by omega)]
          refine ⟨fun _ => rfl, fun hbit => ?_⟩
          have hcast : (r : Int) < 2 ^ 64 := by exact_mod_cast hrlt
          rw [Int.toNat_eq_zero.mpr (by omega)] at hbit
          simp at hbit
        · have hs63 : sigSize ≤ 63 := by omega
          have hr63 : r < 2 ^ 63 := lt_of_lt_of_le hrlt (Nat.pow_le_pow_right (by omega) hs63)
          have hsplit : (2 : Nat) ^ 64 - 2 ^ sigSize = 2 ^ sigSize * (2 ^ (64 - sigSize) - 1) := by
            rw [Nat.mul_sub, Nat.mul_one, ← pow_add]
            congr 2
            omega
          have hlor : ((2 : Nat) ^ 64 - 2 ^ sigSize) ||| r = 2 ^ 64 - 2 ^ sigSize + r := by
            rw [hsplit]
            exact lor_mul_pow_add sigSize _ r hrlt
          rw [hlor]
          have h63le : (2 : Nat) ^ 63 ≤ 2 ^ 64 - 2 ^ sigSize := by
            have hle : (2 : Nat) ^ sigSize ≤ 2 ^ 63 := Nat.pow_le_pow_right (by omega) hs63
            have h6364 : (2 : Nat) ^ 63 + 2 ^ 63 = 2 ^ 64 := by norm_num
            omega
          rw [toInt64_of_ge (2 ^ 64 - 2 ^ sigSize + r) (by omega) (by omega),
            toInt64_of_lt r hr63]
          refine ⟨fun hbit => ?_, fun _ => ?_⟩
          · rw [Int.toNat_natCast, hst] at hbit
            cases hbit
          · have hx : (((2 : Nat) ^ sigSize : Nat) : Int) = (2 : Int) ^ sigSize := by
              push_cast
              rfl
            omega

theorem sendRefresh_frames (m : CANFrameModel) : (sendRefresh m).frames = m.frames := rfl

theorem sendRefresh_sortDirAsc (m : CANFrameModel) :
    (sendRefresh m).sortDirAsc = m.sortDirAsc := rfl

theorem sortByColumn_sortDirAsc (m : CANFrameModel) (col : Column) :
    (sortByColumn m col).sortDirAsc = !m.sortDirAsc := rfl

theorem sortByColumn_frames (m : CANFrameModel) (col : Column) :
    (sortByColumn m col).frames =
      if !m.sortDirAsc then
        qSortCANFrameAsc m.overwriteDups m.frames col 0 ((m.frames.length : Int) - 1)
      else
        qSortCANFrameDesc m.overwriteDups m.frames col 0 ((m.frames.length : Int) - 1) := rfl

/-! ## Concrete instances used by the claim theorems -/

/-- An empty model: no frames, empty filter table, dedup mode on. -/
def cEmpty : CANFrameModel :=
  { frames := []
    filteredFrames := []
    filters := []
    overwriteDups := true
    timeOffset := 0
    sortDirAsc := false
    filterNMTon := false
    filterSYNCon := false
    filterEMCYon := false
    filterTIMEon := false
    filterHBEATon := false
    needFilterRefresh := false
    lastUpdateNumFrames := 0 }

/-- A received data frame with the given identifier and bus. -/
def cFrame (id : Nat) (bus : Int) : CANFrame :=
  { frameId := id
    extended := false
    bus := bus
    timeStamp := 0
    isReceived := true
    isRemote := false
    payload := []
    frameCount := 1
    timedelta := 0 }

/-- A model whose filter table holds the one enabled key 1. -/
def cThreeModel : CANFrameModel := { cEmpty with filters := [(1, true)] }

/-- A model whose filter table holds the one enabled key 0x23. -/
def cFiveModel : CANFrameModel := { cEmpty with filters := [(35, true)] }

/-- A model with one frame (identifier 1) visible in the filtered view and
its key enabled. -/
def cSixModel : CANFrameModel :=
  { cEmpty with
    frames := [cFrame 1 0]
    filteredFrames := [cFrame 1 0]
    filters := [(1, true)] }

/-- A refresh over an empty store leaves the filter table unchanged. -/
theorem sendRefresh_filters_nil (m : CANFrameModel) (hf : m.frames = []) :
    (sendRefresh m).filters = m.filters := by
  simp only [sendRefresh]
  rw [hf]
  rfl

/-- The `loadFilterFile` accumulation over lines that all simplify to at
most two bytes adds no entry. -/
theorem skipFold_nil (lines : List (List Char)) :
    (∀ l ∈ lines, (qtSimplified l).length ≤ 2) →
    lines.foldl (fun (fs : FilterMap) (line : List Char) =>
      let l := qtSimplified line
      if 2 < l.length then
        let tokens := splitComma l
        let ID := qtToIntHex (tokens.getD 0 [])
        let key := (ID.emod 128).toNat
        if (tokens.getD 1 []).map qtToUpperChar == ['T'] then fmInsert fs key true
        else fmInsert fs key false
      else fs) [] = [] := by
  induction lines with
  | nil => intro _; rfl
  | cons l t ih =>
    intro hall
    have hcond : ¬ 2 < (qtSimplified l).length := by
      have := hall l (by simp)
      omega
    rw [List.foldl_cons]
    simp only [if_neg hcond]
    exact ih (fun x hx => hall x (by simp [hx]))

/-! ## The claims -/

/-- C1, counterexample: on payload `[0x12, 0x34]` the big-endian decode with
`startBit = 0`, `bitLength = 16` returns 0, not 0x1234: the Motorola bit
cursor starting at bit 0 jumps to bit 15 and, after draining byte 1, probes
byte 2, which is outside the two-byte payload. -/
theorem c1_counterexample :
    processIntegerSignal [0x12, 0x34] 0 16 false false = 0 ∧
    processIntegerSignal [0x12, 0x34] 0 16 false false ≠ 4660 := by
  exact ⟨rfl, by decide⟩

/-- C1: on payload `[0x12, 0x34]` with `bitLength = 16`, unsigned: the
little-endian decode from `startBit = 0` returns 0x3412 (13330); the
big-endian decode from `startBit = 0` returns 0 (the traversal runs off the
payload); the big-endian decode returns 0x1234 (4660) from `startBit = 7`. -/
theorem c1_payload_values :
    processIntegerSignal [0x12, 0x34] 0 16 true false = 13330 ∧
    processIntegerSignal [0x12, 0x34] 0 16 false false = 0 ∧
    processIntegerSignal [0x12, 0x34] 7 16 false false = 4660 := by
  exact ⟨rfl, rfl, rfl⟩

/-- C2: ingesting any frame sequence through `addFrame` in dedup
(overwrite) mode from an empty store leaves rows with pairwise-distinct
`(identifier, bus)` pairs, exactly one row per observed pair, and each
row's `frameCount` equal to the number of ingested frames sharing its
pair. -/
theorem c2_dedup_invariant (m : CANFrameModel) (inputs : List CANFrame)
    (hdup : m.overwriteDups = true) (hempty : m.frames = [])
    (hfc : ∀ f ∈ inputs, f.frameCount = 1) :
    (inputs.foldl addFrame m).frames.Pairwise
      (fun g h => ¬(g.frameId = h.frameId ∧ g.bus = h.bus)) ∧
    (∀ (id : Nat) (bus : Int),
      (inputs.foldl addFrame m).frames.countP
          (fun g => g.frameId == id && g.bus == bus) =
        if inputs.any (fun g => g.frameId == id && g.bus == bus) then 1 else 0) ∧
    (∀ (i : Nat) (hi : i < (inputs.foldl addFrame m).frames.length),
      ((inputs.foldl addFrame m).frames.get ⟨i, hi⟩).frameCount =
        inputs.countP
          (fun g => g.frameId == ((inputs.foldl addFrame m).frames.get ⟨i, hi⟩).frameId &&
            g.bus == ((inputs.foldl addFrame m).frames.get ⟨i, hi⟩).bus)) := by
  have h := dedup_ingest inputs m [] hdup hfc
    (by rw [hempty]; exact List.Pairwise.nil)
    (by intro id bus; rw [hempty]; simp)
    (by intro i hi; rw [hempty] at hi; simp at hi)
  rw [List.nil_append] at h
  exact h

/-- Witness for C2: three frames, two of them sharing a pair, ingested into
the empty model; the store ends with distinct pairs. -/
theorem c2_dedup_invariant_witness :
    cEmpty.overwriteDups = true ∧ cEmpty.frames = [] ∧
    (∀ f ∈ [cFrame 1 0, cFrame 1 0, cFrame 2 0], f.frameCount = 1) ∧
    ([cFrame 1 0, cFrame 1 0, cFrame 2 0].foldl addFrame cEmpty).frames.Pairwise
      (fun g h => ¬(g.frameId = h.frameId ∧ g.bus = h.bus)) :=
  ⟨rfl, rfl, by decide,
    (c2_dedup_invariant cEmpty [cFrame 1 0, cFrame 1 0, cFrame 2 0] rfl rfl (by decide)).1⟩

/-- C3, counterexample: after the first ingest the table holds the one
configured key 1; ingesting a frame with the brand-new key 2 nevertheless
registers it enabled, because `any_filters_are_configured` tests for a
`false` value, not for mere presence of a key. -/
theorem c3_counterexample :
    (addFrame cEmpty (cFrame 1 0)).filters = [(1, true)] ∧
    fmLookup (addFrame (addFrame cEmpty (cFrame 1 0)) (cFrame 2 0)).filters 2 =
      some true := by
  exact ⟨by decide, by decide⟩

/-- C3: `addFrame` on a frame whose key is new to the filter table inserts
the key with value `!any_filters_are_configured`, and
`any_filters_are_configured` holds exactly when some existing entry is
disabled — not when some key merely exists. -/
theorem c3_new_key_policy (m : CANFrameModel) (f : CANFrame)
    (hnew : fmContains m.filters (f.frameId &&& 0x7F) = false) :
    fmLookup (addFrame m f).filters (f.frameId &&& 0x7F) =
      some (!any_filters_are_configured m.filters) ∧
    (any_filters_are_configured m.filters = true ↔ ∃ p ∈ m.filters, p.2 = false) := by
  constructor
  · rw [addFrame_filters, if_neg (by simp [hnew])]
    cases ha : any_filters_are_configured m.filters
    · simp only [Bool.false_eq_true, if_false, Bool.not_false]
      exact fmLookup_fmInsert_self _ _ _
    · simp only [if_true, Bool.not_true]
      exact fmLookup_fmInsert_self _ _ _
  · exact any_filters_iff m.filters

/-- Witness for C3: a new key 2 ingested while the enabled key 1 is already
configured. -/
theorem c3_new_key_policy_witness :
    fmContains cThreeModel.filters ((cFrame 2 0).frameId &&& 0x7F) = false ∧
    fmLookup (addFrame cThreeModel (cFrame 2 0)).filters
        ((cFrame 2 0).frameId &&& 0x7F) =
      some (!any_filters_are_configured cThreeModel.filters) :=
  ⟨by decide, (c3_new_key_policy cThreeModel (cFrame 2 0) (by decide)).1⟩

/-- C4: `sortByColumn` flips the direction flag (two calls restore it,
the operation is not idempotent), and the full store ends sorted by the
column key: adjacent keys are non-decreasing after an ascending sort and
non-increasing after a descending one. -/
theorem c4_sortByColumn_spec (m : CANFrameModel) (col : Column) :
    (sortByColumn m col).sortDirAsc = !m.sortDirAsc ∧
    (sortByColumn (sortByColumn m col) col).sortDirAsc = m.sortDirAsc ∧
    ((sortByColumn m col).sortDirAsc = true →
      ∀ k : Int, 0 ≤ k → k + 1 ≤ ((sortByColumn m col).frames.length : Int) - 1 →
        getCANFrameVal m.overwriteDups (sortByColumn m col).frames k col ≤
          getCANFrameVal m.overwriteDups (sortByColumn m col).frames (k + 1) col) ∧
    ((sortByColumn m col).sortDirAsc = false →
      ∀ k : Int, 0 ≤ k → k + 1 ≤ ((sortByColumn m col).frames.length : Int) - 1 →
        getCANFrameVal m.overwriteDups (sortByColumn m col).frames (k + 1) col ≤
          getCANFrameVal m.overwriteDups (sortByColumn m col).frames k col) := by
  refine ⟨sortByColumn_sortDirAsc m col, ?_, ?_, ?_⟩
  · rw [sortByColumn_sortDirAsc, sortByColumn_sortDirAsc, Bool.not_not]
  · intro hasc k hk0 hk1
    rw [sortByColumn_sortDirAsc] at hasc
    rw [sortByColumn_frames, if_pos hasc] at hk1 ⊢
    have hs := qSortCANFrameAsc_sorted m.overwriteDups m.frames col
    rw [hs.1] at hk1
    exact hs.2 k (k + 1) hk0 (by omega) hk1
  · intro hdesc k hk0 hk1
    rw [sortByColumn_sortDirAsc] at hdesc
    rw [sortByColumn_frames, if_neg (by simp [hdesc])] at hk1 ⊢
    have hs := qSortCANFrameDesc_sorted m.overwriteDups m.frames col
    rw [hs.1] at hk1
    exact hs.2 k (k + 1) hk0 (by omega) hk1

/-- C5: `setFilterState` masks the key in its `contains` guard but assigns
at the unmasked identifier, so updating key `0x123 & 0x7F = 0x23` through
identifier 0x123 appends a new entry at 0x123 and leaves the consulted
entry 0x23 untouched — it does not update the key's state and it adds an
entry. -/
theorem c5_setFilterState_unmasked :
    (setFilterState cFiveModel 291 false).filters = [(35, true), (291, false)] ∧
    fmLookup (setFilterState cFiveModel 291 false).filters 35 = some true := by
  exact ⟨by decide, by decide⟩

/-- C6, counterexample: disabling all filters on a model with one visible
frame empties the filtered view immediately — `setAllFilters` invokes the
wholesale refresh itself, so the view does change with the edit. -/
theorem c6_counterexample :
    cSixModel.filteredFrames = [cFrame 1 0] ∧
    (setAllFilters cSixModel false).filteredFrames = [] ∧
    (setAllFilters cSixModel false).filteredFrames ≠ cSixModel.filteredFrames := by
  exact ⟨rfl, by decide, by decide⟩

/-- C6: each filter edit recomputes the filtered view inline — after
`setAllFilters`, and after `setFilterState` on a known key, the view equals
the wholesale filter of the full store under the updated table
(`setFilterState` on an unknown key is a no-op). -/
theorem c6_edit_refreshes_view (m : CANFrameModel) (state : Bool) :
    (setAllFilters m state).filteredFrames =
      m.frames.filter (fun f =>
        (fmLookup (fmSetAll m.filters state) (f.frameId &&& 0x7F)).getD false &&
          filterFrameConsideringFunction m f.frameId) ∧
    (∀ ID : Nat, fmContains m.filters (ID &&& 0x7F) = false →
      setFilterState m ID state = m) ∧
    (∀ ID : Nat, fmContains m.filters (ID &&& 0x7F) = true →
      (setFilterState m ID state).filteredFrames =
        m.frames.filter (fun f =>
          (fmLookup (fmInsert m.filters ID state) (f.frameId &&& 0x7F)).getD false &&
            filterFrameConsideringFunction m f.frameId)) := by
  refine ⟨?_, ?_, ?_⟩
  · simp only [setAllFilters]
    rw [sendRefresh_filteredFrames]
    rfl
  · intro ID hnc
    simp only [setFilterState]
    rw [if_pos (by simp [hnc])]
  · intro ID hc
    simp only [setFilterState]
    rw [if_neg (by simp [hc]), sendRefresh_filteredFrames]
    rfl

/-- C7, counterexample: the malformed line `"zz,T"` is not skipped — its
simplified form is longer than two bytes, `toInt(16)` turns the non-hex
token `"zz"` into 0, and the loader registers key 0 enabled. -/
theorem c7_counterexample :
    (loadFilterFile cEmpty (some ["zz,T\n".data])).filters = [(0, true)] := by
  decide

/-- C7: a load that cannot open its file leaves the model untouched; lines
whose simplified form has at most two bytes (the only lines the loader
skips) contribute no entry, so a file of only such lines yields an empty
table when the store is empty; and the well-formed content
`"123,T\n456,F\n"` yields key `0x123 & 0x7F = 0x23` enabled and key
`0x456 & 0x7F = 0x56` disabled. -/
theorem c7_loader_spec (m : CANFrameModel) :
    loadFilterFile m none = m ∧
    (m.frames = [] → ∀ lines : List (List Char),
      (∀ l ∈ lines, (qtSimplified l).length ≤ 2) →
      (loadFilterFile m (some lines)).filters = []) ∧
    (loadFilterFile cEmpty (some ["123,T\n".data, "456,F\n".data])).filters =
      [(0x23, true), (0x56, false)] := by
  refine ⟨rfl, ?_, by decide⟩
  intro hf lines hall
  have hfold := skipFold_nil lines hall
  simp only [loadFilterFile]
  rw [hfold, sendRefresh_filters_nil _ (by exact hf)]

/-- C8: the extractor returns 0 — never an error — both when the byte
budget `(startBit + bitLength) / 8` exceeds the payload length and when
some visited bit position below 64 lies in a byte outside the payload. -/
theorem c8_out_of_range_zero (data : List Nat) (startBit sigSize : Nat)
    (littleEndian isSigned : Bool) :
    (data.length < (startBit + sigSize) / 8 →
      processIntegerSignal data startBit sigSize littleEndian isSigned = 0) ∧
    ((∃ i, i < sigSize ∧ signalBitPos littleEndian startBit i < 64 ∧
        data.length ≤ signalBitPos littleEndian startBit i / 8) →
      processIntegerSignal data startBit sigSize littleEndian isSigned = 0) := by
  refine ⟨?_, ?_⟩
  · intro h
    simp only [processIntegerSignal, if_pos h]
  · rintro ⟨i, hi, hb, hlen⟩
    by_cases hpre : data.length < (startBit + sigSize) / 8
    · simp only [processIntegerSignal, if_pos hpre]
    · simp only [processIntegerSignal, if_neg hpre]
      cases littleEndian with
      | true =>
        have hb' : startBit + i < 64 := by simpa [signalBitPos] using hb
        have hl' : data.length ≤ (startBit + i) / 8 := by
          simpa [signalBitPos] using hlen
        rw [if_pos rfl, leBits_none data sigSize 0 startBit 0 ⟨i, hi, hb', hl'⟩]
      | false =>
        have hb' : motorolaNext^[i] startBit < 64 := by simpa [signalBitPos] using hb
        have hl' : data.length ≤ motorolaNext^[i] startBit / 8 := by
          simpa [signalBitPos] using hlen
        rw [if_neg (by simp), beBits_none data sigSize sigSize 0 startBit 0
          ⟨i, hi, hb', hl'⟩]

/-- Witness for C8: the empty payload, for which bit 0 of the traversal is
already out of range. -/
theorem c8_out_of_range_zero_witness :
    (∃ i, i < 8 ∧ signalBitPos true 0 i < 64 ∧
      ([] : List Nat).length ≤ signalBitPos true 0 i / 8) ∧
    processIntegerSignal [] 0 8 true false = 0 :=
  ⟨⟨0, by decide, by decide, by decide⟩,
    (c8_out_of_range_zero [] 0 8 true false).2 ⟨0, by decide, by decide, by decide⟩⟩

/-- C9: for any layout of at most 64 bits, the signed decode `s` and the
unsigned decode `v` of the same bits satisfy `s = v` when bit
`bitLength - 1` of `v` is clear and `s = v - 2 ^ bitLength` when it is
set; in particular the 4-bit raw value 0b1000 decodes signed to -8. -/
theorem c9_sign_extension (data : List Nat) (startBit sigSize : Nat)
    (littleEndian : Bool) (h1 : 1 ≤ sigSize) (h64 : sigSize ≤ 64) :
    (((processIntegerSignal data startBit sigSize littleEndian false).toNat.testBit
        (sigSize - 1) = false →
      processIntegerSignal data startBit sigSize littleEndian true =
        processIntegerSignal data startBit sigSize littleEndian false) ∧
    ((processIntegerSignal data startBit sigSize littleEndian false).toNat.testBit
        (sigSize - 1) = true →
      processIntegerSignal data startBit sigSize littleEndian true =
        processIntegerSignal data startBit sigSize littleEndian false - 2 ^ sigSize)) ∧
    processIntegerSignal [8] 0 4 true true = -8 :=
  ⟨processIntegerSignal_signed_spec data startBit sigSize littleEndian h1 h64, by decide⟩

/-- Witness for C9: the 4-bit value 5 with a clear sign bit decodes equal
under both signednesses. -/
theorem c9_sign_extension_witness :
    1 ≤ 4 ∧ 4 ≤ 64 ∧
    (processIntegerSignal [5] 0 4 true false).toNat.testBit 3 = false ∧
    processIntegerSignal [5] 0 4 true true = processIntegerSignal [5] 0 4 true false :=
  ⟨by decide, by decide, by decide,
    (c9_sign_extension [5] 0 4 true (by decide) (by decide)).1.1 (by decide)⟩

/-- C10: bulk ingestion through `insertFrames` registers a key absent from
the filter table as enabled whenever some frame of the batch carries it,
regardless of what other keys are configured. -/
theorem c10_insertFrames_enables (m : CANFrameModel) (batch : List CANFrame) (k : Nat)
    (habs : fmLookup m.filters k = none)
    (hseen : ∃ f ∈ batch, f.frameId &&& 0x7F = k) :
    fmLookup (insertFrames m batch).filters k = some true := by
  have h := (insertFrames_fold_filters batch m).2 k habs hseen
  exact h

/-- Witness for C10: a batch with the one new key 2 ingested into the empty
model. -/
theorem c10_insertFrames_enables_witness :
    fmLookup cEmpty.filters 2 = none ∧
    (∃ f ∈ [cFrame 2 0], f.frameId &&& 0x7F = 2) ∧
    fmLookup (insertFrames cEmpty [cFrame 2 0]).filters 2 = some true :=
  ⟨rfl, ⟨cFrame 2 0, by simp, by decide⟩,
    c10_insertFrames_enables cEmpty [cFrame 2 0] 2 rfl ⟨cFrame 2 0, by simp, by decide⟩⟩

end CANOpen
